import Mathlib

/-!
Verification of the simple-layout engine against its specification.

The Rust sources are shallowly embedded: `u32` values become `Nat` together
with explicit saturating (`satAdd`, `satMul`) or wrapping (`wrap32`)
operations where the source uses `Saturating<u32>` resp. plain `u32`
arithmetic, `i32` values become `Int` with explicit saturating/wrapping
operations and explicit casts (`asI32`, `toU32`), and fallible `u32`
subtraction (which panics on underflow in debug builds) becomes `Option`.
-/

namespace SimpleLayout

/-- Largest `u32` value. -/
def u32Max : Nat := 4294967295

/-- Modulus of `u32` arithmetic. -/
def u32Mod : Nat := 4294967296

/-- Largest `i32` value. -/
def i32Max : Int := 2147483647

/-- Smallest `i32` value. -/
def i32Lo : Int := -2147483648

/-- `Saturating<u32>` addition. -/
def satAdd (a b : Nat) : Nat := min (a + b) u32Max

/-- `Saturating<u32>` multiplication. -/
def satMul (a b : Nat) : Nat := min (a * b) u32Max

/-- Wrapping `u32` arithmetic (release-build overflow semantics). -/
def wrap32 (n : Nat) : Nat := n % u32Mod

/-- The Rust cast `u32 as i32` (two's-complement reinterpretation). -/
def asI32 (n : Nat) : Int :=
  if n % u32Mod < 2147483648 then ((n % u32Mod : Nat) : Int)
  else ((n % u32Mod : Nat) : Int) - 4294967296

/-- The Rust cast `i32 as u32` (two's-complement reinterpretation). -/
def toU32 (z : Int) : Nat := (z % (4294967296 : Int)).toNat

/-- `Saturating<i32>` addition. -/
def satAddI32 (a b : Int) : Int := max i32Lo (min (a + b) i32Max)

/-- `Saturating<i32>` subtraction. -/
def satSubI32 (a b : Int) : Int := max i32Lo (min (a - b) i32Max)

/-- Wrapping `i32` normalisation (release-build overflow semantics of plain
`i32` addition). -/
def wrapI32 (z : Int) : Int := (z + 2147483648) % 4294967296 - 2147483648

/-- Checked `u32` subtraction: `a - b` panics (debug) / wraps (release) when
`b > a`; either behaviour is a failure of the claimed clamped result, so the
embedding returns `none` there. -/
def checkedSub (a b : Nat) : Option Nat := if b ≤ a then some (a - b) else none

/-- `ValueRange<Saturating<u32>>` from `lib.rs` (field names kept). -/
structure ValueRange where
  preferred_value : Nat
  min_value : Nat
  max_value : Nat
deriving Repr, DecidableEq

/-! ## Alignment (`align.rs`) -/

/-- `CenteredAlignment::place`: offset and extent for one axis. -/
def centeredPlace (available : Nat) (tr : ValueRange) : Int × Nat :=
  if tr.max_value < available then
    (Int.tdiv (asI32 (available - tr.max_value)) 2, tr.max_value)
  else if available < tr.min_value then
    (Int.tdiv (satSubI32 (asI32 available) (asI32 tr.min_value)) 2, tr.min_value)
  else (0, available)

/-- `StartAlignment::place`. -/
def startPlace (available : Nat) (tr : ValueRange) : Int × Nat :=
  if tr.max_value < available then (0, tr.max_value)
  else if available < tr.min_value then (0, tr.min_value)
  else (0, available)

/-- `EndAlignment::place`. -/
def endPlace (available : Nat) (tr : ValueRange) : Int × Nat :=
  if tr.max_value < available then
    (satSubI32 (asI32 available) (asI32 tr.max_value), tr.max_value)
  else if available < tr.min_value then
    (satSubI32 (asI32 available) (asI32 tr.min_value), tr.min_value)
  else (0, available)

/-! ## Border (`border.rs`) -/

/-- Modelled from the spec: the crate root implementing
`ValueRange<Saturating<u32>> + Saturating<u32>` is not under `src/` (only the
old plain-`u32` `lib.rs` is); section 4.1 of the spec defines it as "add a
scalar to all three fields", with all arithmetic saturating. -/
def addScalar (v : ValueRange) (s : Nat) : ValueRange :=
  ⟨satAdd v.preferred_value s, satAdd v.min_value s, satAdd v.max_value s⟩

/-- `Bordered::size`: child size plus `Saturating(decorator.width() * 2)` on
both axes (the `* 2` is plain `u32` multiplication, hence `wrap32`). -/
def borderedSize (childW childH : ValueRange) (decoratorWidth : Nat) :
    ValueRange × ValueRange :=
  let offset := wrap32 (decoratorWidth * 2)
  (addScalar childW offset, addScalar childH offset)

/-- `Bordered::draw_placed` inner width: `width - 2 * border` in plain `u32`,
which underflows when the rectangle is narrower than twice the decorator
width. -/
def borderedInnerExtent (outer border : Nat) : Option Nat :=
  checkedSub outer (2 * border)

/-! ## Scale (`scale.rs`) -/

/-- `Scale::draw_placed`: `let total_dot_count = (width - 5) / 3;` with plain
`u32` subtraction, which underflows for `width < 5`. -/
def scaleTotalDotCount (width : Nat) : Option Nat :=
  (checkedSub width 5).map (· / 3)

/-! ## Padding (`padding.rs`) -/

/-- `Padding::draw_placed`: the child is drawn at the origin moved by
`(left, top)` with the size shrunk by `(left+right, top+bottom)` using
`Saturating<i32>` subtraction and an `i32 as u32` cast; `child` stands for the
child's `draw_placed`, as a function of the rectangle it receives. -/
def paddingDrawPlaced {α : Type} (child : Int → Int → Nat → Nat → α)
    (t r b l : Int) (x y : Int) (w h : Nat) : α :=
  child (x + l) (y + t)
    (toU32 (satSubI32 (asI32 w) (wrapI32 (l + r))))
    (toU32 (satSubI32 (asI32 h) (wrapI32 (t + b))))

/-! ## Dashed line (`border.rs`) -/

/-- The Rust `i32` range `a..b` as a list. -/
def rangeInt (a b : Int) : List Int :=
  (List.range (b - a).toNat).map (fun (i : Nat) => a + (i : Int))

/-- The pixel walk of `DashedLine::draw_placed` before filtering: the four
chained edge iterators (top left-to-right, right top-to-bottom, bottom
right-to-left, left bottom-to-top). -/
def perimWalk (sx sy : Int) (w h : Nat) : List (Int × Int) :=
  let ex := sx + asI32 w - 1
  let ey := sy + asI32 h - 1
  (rangeInt sx ex).map (fun x => (x, sy))
    ++ (rangeInt sy ey).map (fun y => (ex, y))
    ++ ((rangeInt sx ex).reverse).map (fun x => (x, ey))
    ++ ((rangeInt sy ey).reverse).map (fun y => (sx, y))

/-- `DashedLine::draw_placed`: enumerate the walk and keep step `i` iff
`i as u32 % (dot_count + gap_count) < dot_count`. -/
def dashedPixels (dot gap : Nat) (sx sy : Int) (w h : Nat) : List (Int × Int) :=
  ((perimWalk sx sy w h).enum.filter
    (fun p => wrap32 p.1 % wrap32 (dot + gap) < dot)).map Prod.snd

/-- The clockwise perimeter of a `w × h` rectangle starting at the top-left
corner, as a function of the step index (the spec's description of the dashed
walk). -/
def perimPoint (sx sy : Int) (w h : Nat) (i : Nat) : Int × Int :=
  if i < w - 1 then (sx + (i : Int), sy)
  else if i < (w - 1) + (h - 1) then
    (sx + (w : Int) - 1, sy + ((i - (w - 1) : Nat) : Int))
  else if i < (w - 1) + (h - 1) + (w - 1) then
    (sx + (w : Int) - 2 - ((i - (w - 1) - (h - 1) : Nat) : Int), sy + (h : Int) - 1)
  else
    (sx, sy + (h : Int) - 2 - ((i - (w - 1) - (h - 1) - (w - 1) : Nat) : Int))

/-! ## Error propagation (`linear.rs` / `border.rs`)

A child's `draw_placed` is abstracted as a state transformer on the drawing
surface that may fail with the surface's error. -/

/-- The nested `SingleLinearLayout` / `ChainingLinearLayout` structure: a
non-empty snoc list of children. -/
inductive LinChain (σ ε : Type) where
  | single (c : σ → Except ε σ)
  | chain (base : LinChain σ ε) (c : σ → Except ε σ)

/-- `draw_placed_components`: draw the base layout, propagate its error with
`?`, then draw the last child. -/
def drawComponents {σ ε : Type} : LinChain σ ε → σ → Except ε σ
  | .single c, s => c s
  | .chain base c, s =>
    match drawComponents base s with
    | .error e => .error e
    | .ok s' => c s'

/-- `LayoutableLinearLayout::append` iterated over a list of children. -/
def appendChildren {σ ε : Type} (base : LinChain σ ε) :
    List (σ → Except ε σ) → LinChain σ ε
  | [] => base
  | c :: cs => appendChildren (.chain base c) cs

/-- `Bordered::draw_placed` control flow: draw the decorator, propagate its
error with `?`, then draw the child. -/
def borderedDraw {σ ε : Type} (dec child : σ → Except ε σ) (s : σ) : Except ε σ :=
  match dec s with
  | .error e => .error e
  | .ok s' => child s'

/-! ## Linear distribution engine, `Saturating<u32>` version (`linear.rs`) -/

/-- Sum of the weights of the shrink-eligible entries (`weight > 0` and
current extent above the minimum), as in the `entries_with_headroom` filter. -/
def eligShrinkSum : List Nat → List Nat → List Nat → Nat
  | w :: ws, cur :: rs, mn :: ms =>
    (if 0 < w ∧ mn < cur then w else 0) + eligShrinkSum ws rs ms
  | _, _, _ => 0

/-- Sum of the weights of the grow-eligible entries (`weight > 0` and current
extent below the maximum). -/
def eligGrowSum : List Nat → List Nat → List Nat → Nat
  | w :: ws, cur :: rs, mx :: ms =>
    (if 0 < w ∧ cur < mx then w else 0) + eligGrowSum ws rs ms
  | _, _, _ => 0

/-- One pass of the shrink loop of `LayoutableLinearLayout::draw_placed`
(`linear.rs`): for each eligible entry, `theoretical_decrease = budget *
weight / remaining_weights` (saturating multiplication), `selected_decrease =
min(theoretical, extent - minimum)`; the extent drops by the selected amount
while the budget drops by the theoretical amount. Returns the new extents and
the remaining budget. -/
def shrinkPass : List Nat → List Nat → List Nat → Nat → Nat → List Nat × Nat
  | w :: ws, cur :: rs, mn :: ms, budget, rw =>
    if 0 < w ∧ mn < cur then
      let theo := satMul budget w / rw
      let sel := min theo (cur - mn)
      let p := shrinkPass ws rs ms (budget - theo) (rw - w)
      ((cur - sel) :: p.1, p.2)
    else
      let p := shrinkPass ws rs ms budget rw
      (cur :: p.1, p.2)
  | _, rs, _, budget, _ => (rs, budget)

/-- One pass of the grow loop (`linear.rs`): `selected_increase =
min(theoretical, maximum - extent)`, extent grows by the selected amount
(saturating addition), budget drops by the theoretical amount. -/
def growPass : List Nat → List Nat → List Nat → Nat → Nat → List Nat × Nat
  | w :: ws, cur :: rs, mx :: ms, budget, rw =>
    if 0 < w ∧ cur < mx then
      let theo := satMul budget w / rw
      let sel := min theo (mx - cur)
      let p := growPass ws rs ms (budget - theo) (rw - w)
      ((satAdd cur sel) :: p.1, p.2)
    else
      let p := growPass ws rs ms budget rw
      (cur :: p.1, p.2)
  | _, rs, _, budget, _ => (rs, budget)

theorem shrinkPass_snd_le (ws rs ms : List Nat) (b rw : Nat) :
    (shrinkPass ws rs ms b rw).2 ≤ b := by
  induction ws generalizing rs ms b rw with
  | nil => simp [shrinkPass]
  | cons w ws ih =>
    cases rs with
    | nil => simp [shrinkPass]
    | cons cur rs =>
      cases ms with
      | nil => simp [shrinkPass]
      | cons mn ms =>
        simp only [shrinkPass]
        split
        · exact le_trans (ih ..) (Nat.sub_le ..)
        · exact ih ..

theorem growPass_snd_le (ws rs ms : List Nat) (b rw : Nat) :
    (growPass ws rs ms b rw).2 ≤ b := by
  induction ws generalizing rs ms b rw with
  | nil => simp [growPass]
  | cons w ws ih =>
    cases rs with
    | nil => simp [growPass]
    | cons cur rs =>
      cases ms with
      | nil => simp [growPass]
      | cons mx ms =>
        simp only [growPass]
        split
        · exact le_trans (ih ..) (Nat.sub_le ..)
        · exact ih ..

/-- The `while remaining_budget > 0` shrink loop of `linear.rs`: recompute the
eligible set and its weight sum (a plain `u32` sum, hence `wrap32`), break if
it is zero, run a pass, break if the pass made no progress. -/
def shrinkLoop (ws ms : List Nat) (budget : Nat) (rs : List Nat) : List Nat :=
  if budget = 0 then rs
  else
    let rw := wrap32 (eligShrinkSum ws rs ms)
    if rw = 0 then rs
    else
      let p := shrinkPass ws rs ms budget rw
      if hp : p.2 = budget then p.1
      else shrinkLoop ws ms p.2 p.1
termination_by budget
decreasing_by
  exact Nat.lt_of_le_of_ne (shrinkPass_snd_le ws rs ms budget _) hp

/-- The grow loop of `linear.rs`, symmetric to `shrinkLoop`. -/
def growLoop (ws ms : List Nat) (budget : Nat) (rs : List Nat) : List Nat :=
  if budget = 0 then rs
  else
    let rw := wrap32 (eligGrowSum ws rs ms)
    if rw = 0 then rs
    else
      let p := growPass ws rs ms budget rw
      if hp : p.2 = budget then p.1
      else growLoop ws ms p.2 p.1
termination_by budget
decreasing_by
  exact Nat.lt_of_le_of_ne (growPass_snd_le ws rs ms budget _) hp

/-- The extent-resolution core of `LayoutableLinearLayout::draw_placed`
(`linear.rs`): compare the along-target with the saturating sum of preferred
extents and pick the forced minima/maxima, the preferred extents, or the
result of the shrink/grow loop. -/
def resolveLinear (slots : List ValueRange) (ws : List Nat) (target : Nat) :
    List Nat :=
  let prefs := slots.map ValueRange.preferred_value
  let totalPref := prefs.foldl satAdd 0
  if target < totalPref then
    let mins := slots.map ValueRange.min_value
    let totalMin := mins.foldl satAdd 0
    if target ≤ totalMin then mins
    else shrinkLoop ws mins (totalPref - target) prefs
  else if target = totalPref then prefs
  else
    let maxs := slots.map ValueRange.max_value
    let totalMax := maxs.foldl satAdd 0
    if totalMax ≤ target then maxs
    else growLoop ws maxs (target - totalPref) prefs

/-- The placement step of `draw_placed` (`linear.rs`): each slot is placed at
the running along-offset (advanced with `Saturating<i32>` addition of the
`u32 as i32` cast of the resolved extent) with its resolved along-extent. -/
def placedSat (x : Int) : List Nat → List (Int × Nat)
  | [] => []
  | l :: ls => (x, l) :: placedSat (satAddI32 x (asI32 l)) ls

/-! ## Linear distribution engine, plain-`u32` version (`lib.rs`) -/

/-- One pass of the shrink loop of `lib.rs`: identical to `shrinkPass` except
that `remaining_budget * weight` is a plain (wrapping) `u32` product. -/
def shrinkPassW : List Nat → List Nat → List Nat → Nat → Nat → List Nat × Nat
  | w :: ws, cur :: rs, mn :: ms, budget, rw =>
    if 0 < w ∧ mn < cur then
      let theo := wrap32 (budget * w) / rw
      let sel := min theo (cur - mn)
      let p := shrinkPassW ws rs ms (budget - theo) (rw - w)
      ((cur - sel) :: p.1, p.2)
    else
      let p := shrinkPassW ws rs ms budget rw
      (cur :: p.1, p.2)
  | _, rs, _, budget, _ => (rs, budget)

/-- One pass of the grow loop of `lib.rs`: wrapping `u32` product and plain
(wrapping) `u32` addition for the extent update. -/
def growPassW : List Nat → List Nat → List Nat → Nat → Nat → List Nat × Nat
  | w :: ws, cur :: rs, mx :: ms, budget, rw =>
    if 0 < w ∧ cur < mx then
      let theo := wrap32 (budget * w) / rw
      let sel := min theo (mx - cur)
      let p := growPassW ws rs ms (budget - theo) (rw - w)
      ((wrap32 (cur + sel)) :: p.1, p.2)
    else
      let p := growPassW ws rs ms budget rw
      (cur :: p.1, p.2)
  | _, rs, _, budget, _ => (rs, budget)

theorem shrinkPassW_snd_le (ws rs ms : List Nat) (b rw : Nat) :
    (shrinkPassW ws rs ms b rw).2 ≤ b := by
  induction ws generalizing rs ms b rw with
  | nil => simp [shrinkPassW]
  | cons w ws ih =>
    cases rs with
    | nil => simp [shrinkPassW]
    | cons cur rs =>
      cases ms with
      | nil => simp [shrinkPassW]
      | cons mn ms =>
        simp only [shrinkPassW]
        split
        · exact le_trans (ih ..) (Nat.sub_le ..)
        · exact ih ..

theorem growPassW_snd_le (ws rs ms : List Nat) (b rw : Nat) :
    (growPassW ws rs ms b rw).2 ≤ b := by
  induction ws generalizing rs ms b rw with
  | nil => simp [growPassW]
  | cons w ws ih =>
    cases rs with
    | nil => simp [growPassW]
    | cons cur rs =>
      cases ms with
      | nil => simp [growPassW]
      | cons mx ms =>
        simp only [growPassW]
        split
        · exact le_trans (ih ..) (Nat.sub_le ..)
        · exact ih ..

/-- The shrink loop of `lib.rs`. -/
def shrinkLoopW (ws ms : List Nat) (budget : Nat) (rs : List Nat) : List Nat :=
  if budget = 0 then rs
  else
    let rw := wrap32 (eligShrinkSum ws rs ms)
    if rw = 0 then rs
    else
      let p := shrinkPassW ws rs ms budget rw
      if hp : p.2 = budget then p.1
      else shrinkLoopW ws ms p.2 p.1
termination_by budget
decreasing_by
  exact Nat.lt_of_le_of_ne (shrinkPassW_snd_le ws rs ms budget _) hp

/-- The grow loop of `lib.rs`. -/
def growLoopW (ws ms : List Nat) (budget : Nat) (rs : List Nat) : List Nat :=
  if budget = 0 then rs
  else
    let rw := wrap32 (eligGrowSum ws rs ms)
    if rw = 0 then rs
    else
      let p := growPassW ws rs ms budget rw
      if hp : p.2 = budget then p.1
      else growLoopW ws ms p.2 p.1
termination_by budget
decreasing_by
  exact Nat.lt_of_le_of_ne (growPassW_snd_le ws rs ms budget _) hp

/-- Wrapping `u32` addition, the `sum::<u32>()` fold of `lib.rs`. -/
def wAdd (a b : Nat) : Nat := wrap32 (a + b)

/-- The extent-resolution core of `LayoutableLinearLayout::draw_placed` in
`lib.rs`: plain `u32` sum of preferred extents, exact `u64` sums of minima and
maxima for the forced-branch tests, plain-`u32` loops otherwise. -/
def resolveLinearW (slots : List ValueRange) (ws : List Nat) (target : Nat) :
    List Nat :=
  let prefs := slots.map ValueRange.preferred_value
  let totalPref := prefs.foldl wAdd 0
  if target < totalPref then
    let mins := slots.map ValueRange.min_value
    if target ≤ mins.sum then mins
    else shrinkLoopW ws mins (totalPref - target) prefs
  else if target = totalPref then prefs
  else
    let maxs := slots.map ValueRange.max_value
    if maxs.sum ≤ target then maxs
    else growLoopW ws maxs (target - totalPref) prefs

/-- The placement step of `draw_placed` in `lib.rs`: the along-offset is
advanced with plain (wrapping) `i32` addition. -/
def placedW (x : Int) : List Nat → List (Int × Nat)
  | [] => []
  | l :: ls => (x, l) :: placedW (wrapI32 (x + asI32 l)) ls

/-! ## Identity lemmas for the machine casts in their value ranges -/

theorem asI32_eq_ofNat (n : Nat) (h : n < 2147483648) : asI32 n = (n : Int) := by
  unfold asI32 u32Mod
  rw [Nat.mod_eq_of_lt (by omega)]
  simp [h]

theorem wrap32_eq_self (n : Nat) (h : n ≤ u32Max) : wrap32 n = n := by
  unfold wrap32 u32Mod
  unfold u32Max at h
  omega

theorem wrapI32_eq_self (z : Int) (h1 : i32Lo ≤ z) (h2 : z ≤ i32Max) :
    wrapI32 z = z := by
  unfold wrapI32
  unfold i32Lo at h1
  unfold i32Max at h2
  rw [Int.emod_eq_of_lt (by omega) (by omega)]
  omega

theorem satSubI32_eq_sub (a b : Int) (h1 : i32Lo ≤ a - b) (h2 : a - b ≤ i32Max) :
    satSubI32 a b = a - b := by
  unfold satSubI32
  omega

theorem satAddI32_eq_add (a b : Int) (h1 : i32Lo ≤ a + b) (h2 : a + b ≤ i32Max) :
    satAddI32 a b = a + b := by
  unfold satAddI32
  omega

theorem toU32_eq_toNat (z : Int) (h1 : 0 ≤ z) (h2 : z < 4294967296) :
    toU32 z = z.toNat := by
  unfold toU32
  rw [Int.emod_eq_of_lt h1 h2]

theorem satAdd_eq_add (a b : Nat) (h : a + b ≤ u32Max) : satAdd a b = a + b := by
  unfold satAdd
  omega

theorem satMul_eq_mul (a b : Nat) (h : a * b ≤ u32Max) : satMul a b = a * b := by
  unfold satMul
  omega

/-! ## C4 -/

/-- C4: the claim says every `draw_placed` handles rectangles smaller than the
element's minimum by clamping, never panicking or wrapping. The code violates
this: `Scale::draw_placed` computes `(width - 5) / 3` and
`Bordered::draw_placed` computes `width - 2 * border` in plain `u32`
arithmetic, which underflows (panics in debug builds, wraps to huge extents in
release builds) precisely on the small rectangles the claim names. This
theorem evaluates those computations at the failing inputs. -/
theorem C4_draw_small_rect_underflow :
    scaleTotalDotCount 4 = none ∧ borderedInnerExtent 1 1 = none ∧
    (∀ w : Nat, 5 ≤ w → (scaleTotalDotCount w).isSome = true) := by
  refine ⟨rfl, rfl, fun w hw => ?_⟩
  simp [scaleTotalDotCount, checkedSub, hw]

/-- Witness for the hypothesis of the last conjunct of
`C4_draw_small_rect_underflow`. -/
theorem C4_draw_small_rect_underflow_witness :
    (5 ≤ 11) ∧ (scaleTotalDotCount 11).isSome = true :=
  ⟨by decide, (C4_draw_small_rect_underflow.2.2 11 (by decide))⟩

/-! ## C8 -/

/-- C8: for any decorator width whose doubling stays within `u32`,
`Bordered::size` adds `2 × decorator.width()` to each of the preferred, min
and max fields of both axes of the child's size (arithmetic saturating at
`u32::MAX`, as everywhere in the size model). -/
theorem C8_bordered_size (cw ch : ValueRange) (d : Nat) (hd : 2 * d ≤ u32Max) :
    borderedSize cw ch d =
      (⟨satAdd cw.preferred_value (2 * d), satAdd cw.min_value (2 * d),
          satAdd cw.max_value (2 * d)⟩,
        ⟨satAdd ch.preferred_value (2 * d), satAdd ch.min_value (2 * d),
          satAdd ch.max_value (2 * d)⟩) := by
  have h2 : wrap32 (d * 2) = 2 * d := by
    rw [Nat.mul_comm]
    exact wrap32_eq_self _ hd
  simp [borderedSize, addScalar, h2]

/-- Witness for `C8_bordered_size` at decorator width 1. -/
theorem C8_bordered_size_witness :
    (2 * 1 ≤ u32Max) ∧
      borderedSize ⟨3, 2, 5⟩ ⟨7, 4, 9⟩ 1 = (⟨5, 4, 7⟩, ⟨9, 6, 11⟩) :=
  ⟨by decide, by rw [C8_bordered_size _ _ _ (by decide)]; decide⟩

/-! ## C5 -/

/-- C5: for every `ValueRange` with `min ≤ preferred ≤ max` and every
available extent, each alignment rule resolves an extent in `[min, max]`;
whenever `available ≥ max` the extent is exactly `max`; and for the centered
rule with `max < available` (the difference fitting in `i32`) the offset is
`(available − max) / 2`. -/
theorem C5_alignment_extents (av : Nat) (tr : ValueRange)
    (h1 : tr.min_value ≤ tr.preferred_value)
    (h2 : tr.preferred_value ≤ tr.max_value) :
    (tr.min_value ≤ (centeredPlace av tr).2 ∧ (centeredPlace av tr).2 ≤ tr.max_value)
    ∧ (tr.min_value ≤ (startPlace av tr).2 ∧ (startPlace av tr).2 ≤ tr.max_value)
    ∧ (tr.min_value ≤ (endPlace av tr).2 ∧ (endPlace av tr).2 ≤ tr.max_value)
    ∧ (tr.max_value ≤ av →
        (centeredPlace av tr).2 = tr.max_value
        ∧ (startPlace av tr).2 = tr.max_value
        ∧ (endPlace av tr).2 = tr.max_value)
    ∧ (tr.max_value < av → av - tr.max_value < 2147483648 →
        (centeredPlace av tr).1 = (((av - tr.max_value) / 2 : Nat) : Int)) := by
  have hmm : tr.min_value ≤ tr.max_value := le_trans h1 h2
  unfold centeredPlace startPlace endPlace
  refine ⟨?_, ?_, ?_, ?_, ?_⟩
  · split
    · simp [hmm]
    · split <;> simp <;> omega
  · split
    · simp [hmm]
    · split <;> simp <;> omega
  · split
    · simp [hmm]
    · split <;> simp <;> omega
  · intro hav
    split
    · simp
    · split
      · omega
      · simp
        omega
  · intro hav hfit
    rw [if_pos hav]
    simp only
    rw [asI32_eq_ofNat _ hfit, Int.ofNat_tdiv]
    norm_num

/-- Witness for `C5_alignment_extents`: the spec scenario of centering a fixed
5-wide element in available width 11, placed at offset 3 with extent 5. -/
theorem C5_alignment_extents_witness :
    ((5 : Nat) ≤ 5 ∧ (5 : Nat) ≤ 5)
    ∧ ((5 : Nat) ≤ (centeredPlace 11 ⟨5, 5, 5⟩).2
        ∧ (centeredPlace 11 ⟨5, 5, 5⟩).2 ≤ 5)
    ∧ centeredPlace 11 ⟨5, 5, 5⟩ = (3, 5) :=
  ⟨⟨le_refl 5, le_refl 5⟩,
    (C5_alignment_extents 11 ⟨5, 5, 5⟩ (le_refl 5) (le_refl 5)).1,
    by decide⟩

/-! ## C7 -/

/-- C7: whenever the paddings and the shrunk size fit the machine integer
ranges and the shrunk size is non-negative, drawing `padding(x,t,r,b,l)` into
a rectangle produces exactly what drawing the child directly into the
origin-shifted, size-shrunk rectangle produces — for an arbitrary child draw
function, i.e. pixel-for-pixel. -/
theorem C7_padding_composition {α : Type} (child : Int → Int → Nat → Nat → α)
    (t r b l x y : Int) (w h : Nat)
    (hw : w ≤ 2147483647) (hh : h ≤ 2147483647)
    (hlr1 : i32Lo ≤ l + r) (hlr2 : l + r ≤ i32Max)
    (htb1 : i32Lo ≤ t + b) (htb2 : t + b ≤ i32Max)
    (hw1 : 0 ≤ (w : Int) - (l + r)) (hw2 : (w : Int) - (l + r) ≤ i32Max)
    (hh1 : 0 ≤ (h : Int) - (t + b)) (hh2 : (h : Int) - (t + b) ≤ i32Max) :
    paddingDrawPlaced child t r b l x y w h
      = child (x + l) (y + t) ((w : Int) - (l + r)).toNat
          ((h : Int) - (t + b)).toNat := by
  unfold paddingDrawPlaced
  rw [asI32_eq_ofNat w (by omega), asI32_eq_ofNat h (by omega),
    wrapI32_eq_self _ hlr1 hlr2, wrapI32_eq_self _ htb1 htb2,
    satSubI32_eq_sub _ _ (by unfold i32Lo at *; omega) hw2,
    satSubI32_eq_sub _ _ (by unfold i32Lo at *; omega) hh2,
    toU32_eq_toNat _ hw1 (by unfold i32Max at hw2; omega),
    toU32_eq_toNat _ hh1 (by unfold i32Max at hh2; omega)]

/-- Witness for `C7_padding_composition`: padding (1,2,1,2) drawn into the
rectangle at (10,20) of size 8×6 equals the child drawn at (12,21) with size
4×4. -/
theorem C7_padding_composition_witness :
    ((8 : Nat) ≤ 2147483647)
    ∧ paddingDrawPlaced (fun a b c d => (a, b, c, d)) 1 2 1 2 10 20 8 6
        = (12, 21, 4, 4) := by
  refine ⟨by decide, ?_⟩
  rw [C7_padding_composition (fun a b c d => (a, b, c, d)) 1 2 1 2 10 20 8 6
    (by decide) (by decide) (by decide) (by decide) (by decide) (by decide)
    (by decide) (by decide) (by decide) (by decide)]
  decide

/-! ## C9 -/

/-- C9: a draw error from the base of a linear layout is propagated unchanged
and the children appended after the failing one are never drawn (the outcome
does not depend on them); likewise a decorator draw error in a bordered
wrapper is propagated unchanged and prevents the child from being drawn. -/
theorem C9_error_propagation {σ ε : Type} (base : LinChain σ ε) (s : σ) (e : ε)
    (hfail : drawComponents base s = .error e) :
    (∀ cs : List (σ → Except ε σ),
        drawComponents (appendChildren base cs) s = .error e)
    ∧ (∀ dec child : σ → Except ε σ, ∀ s', dec s' = .error e →
        borderedDraw dec child s' = .error e) := by
  constructor
  · intro cs
    induction cs generalizing base with
    | nil => exact hfail
    | cons c cs ih =>
      apply ih
      simp only [drawComponents, hfail]
  · intro dec child s' hdec
    simp only [borderedDraw, hdec]

/-- Witness for `C9_error_propagation`: a single failing child followed by an
appended healthy child still yields the original error. -/
theorem C9_error_propagation_witness :
    drawComponents
        (appendChildren (LinChain.single (fun _ => Except.error 7))
          [fun s => Except.ok (s + 1)]) (0 : Nat)
      = (Except.error 7 : Except Nat Nat) :=
  (C9_error_propagation (LinChain.single (fun _ => Except.error 7)) 0 7 rfl).1 _

/-! ## C6 -/

theorem zip_self_eq_map {α : Type} (l : List α) :
    l.zip l = l.map (fun a => (a, a)) := by
  simpa using List.zip_map' id id l

theorem enum_range_eq (n : Nat) :
    (List.range n).enum = (List.range n).map (fun i => (i, i)) := by
  rw [List.enum_eq_zip_range, List.length_range, zip_self_eq_map]

theorem painted_of_range {α : Type} (f : Nat → α) (q : Nat → Bool) (n : Nat) :
    (((List.range n).map f).enum.filter (fun p => q p.1)).map Prod.snd
      = ((List.range n).filter q).map f := by
  rw [List.enum_map, enum_range_eq, List.map_map, List.filter_map, List.map_map]
  rfl

theorem perimWalk_eq_map_range (sx sy : Int) (w h : Nat)
    (hw1 : 1 ≤ w) (hh1 : 1 ≤ h)
    (hw2 : w ≤ 2147483647) (hh2 : h ≤ 2147483647) :
    perimWalk sx sy w h
      = (List.range ((w - 1) + (h - 1) + (w - 1) + (h - 1))).map
          (perimPoint sx sy w h) := by
  have haw : asI32 w = (w : Int) := asI32_eq_ofNat w (by omega)
  have hah : asI32 h = (h : Int) := asI32_eq_ofNat h (by omega)
  have hrevrange : ∀ n : Nat,
      (List.range n).reverse = (List.range n).map (fun i => n - 1 - i) := by
    intro n
    conv =>
      lhs
      rw [List.range_eq_range', List.reverse_range']
    apply List.map_congr_left
    intro i _
    omega
  unfold perimWalk
  simp only [rangeInt, haw, hah]
  rw [show (sx + (w : Int) - 1 - sx).toNat = w - 1 by omega]
  rw [show (sy + (h : Int) - 1 - sy).toNat = h - 1 by omega]
  rw [← List.map_reverse, ← List.map_reverse, hrevrange (w - 1), hrevrange (h - 1)]
  rw [show (w - 1) + (h - 1) + (w - 1) + (h - 1)
      = (w - 1) + ((h - 1) + ((w - 1) + (h - 1))) by omega]
  rw [List.range_add, List.range_add, List.range_add]
  simp only [List.map_append, List.map_map, List.append_assoc]
  congr 1
  · apply List.map_congr_left
    intro i hi
    rw [List.mem_range] at hi
    simp only [Function.comp, haw, hah]
    rw [perimPoint, if_pos hi]
  congr 1
  · apply List.map_congr_left
    intro i hi
    rw [List.mem_range] at hi
    simp only [Function.comp, haw, hah]
    rw [perimPoint]
    rw [if_neg (by omega)]
    rw [if_pos (by omega)]
    simp only [Prod.mk.injEq, true_and, and_true] <;> omega
  congr 1
  · apply List.map_congr_left
    intro i hi
    rw [List.mem_range] at hi
    simp only [Function.comp, haw, hah]
    rw [perimPoint, if_neg (by omega), if_neg (by omega), if_pos (by omega)]
    simp only [Prod.mk.injEq, true_and, and_true] <;> omega
  · apply List.map_congr_left
    intro i hi
    rw [List.mem_range] at hi
    simp only [Function.comp, haw, hah]
    rw [perimPoint]
    rw [if_neg (by omega)]
    rw [if_neg (by omega)]
    rw [if_neg (by omega)]
    simp only [Prod.mk.injEq, true_and, and_true] <;> omega

/-- C6: for a rectangle with positive `i32`-sized extents and a positive dash
cadence, `DashedLine::draw_placed` paints exactly the pixels of the clockwise
perimeter walk (one continuous index sequence from the top-left, not reset at
corners) whose step index `i` satisfies `i % (dotCount + gapCount) <
dotCount`. -/
theorem C6_dashed_line (dot gap : Nat) (sx sy : Int) (w h : Nat)
    (hw1 : 1 ≤ w) (hh1 : 1 ≤ h)
    (hw2 : w ≤ 2147483647) (hh2 : h ≤ 2147483647)
    (hdg : 0 < dot + gap) (hdg2 : dot + gap ≤ u32Max)
    (hperim : (w - 1) + (h - 1) + (w - 1) + (h - 1) ≤ u32Max) :
    dashedPixels dot gap sx sy w h
      = ((List.range ((w - 1) + (h - 1) + (w - 1) + (h - 1))).filter
          (fun i => decide (i % (dot + gap) < dot))).map (perimPoint sx sy w h) := by
  unfold dashedPixels
  rw [perimWalk_eq_map_range sx sy w h hw1 hh1 hw2 hh2,
    painted_of_range (perimPoint sx sy w h)
      (fun i => decide (wrap32 i % wrap32 (dot + gap) < dot))]
  congr 1
  apply List.filter_congr
  intro i hi
  rw [List.mem_range] at hi
  rw [wrap32_eq_self i (by omega), wrap32_eq_self _ hdg2]

/-- Witness for `C6_dashed_line`: the spec scenario, dotCount 2 and gapCount 2
around a 7×7 rectangle (perimeter 24), painting exactly the step offsets
0,1,4,5,8,9,12,13,16,17,20,21. -/
theorem C6_dashed_line_witness :
    ((1 : Nat) ≤ 7 ∧ 0 < 2 + 2)
    ∧ dashedPixels 2 2 0 0 7 7
        = ((List.range 24).filter (fun i => decide (i % 4 < 2))).map
            (perimPoint 0 0 7 7)
    ∧ (List.range 24).filter (fun i => decide (i % 4 < 2))
        = [0, 1, 4, 5, 8, 9, 12, 13, 16, 17, 20, 21] :=
  ⟨⟨by decide, by decide⟩,
    C6_dashed_line 2 2 0 0 7 7 (by decide) (by decide) (by decide) (by decide)
      (by decide) (by decide) (by decide),
    by decide⟩

/-! ## Invariants of the distribution passes and loops -/

theorem forall2_le_trans {xs ys zs : List Nat}
    (h1 : List.Forall₂ (· ≤ ·) xs ys) (h2 : List.Forall₂ (· ≤ ·) ys zs) :
    List.Forall₂ (· ≤ ·) xs zs := by
  induction h1 generalizing zs with
  | nil => cases h2; exact List.Forall₂.nil
  | cons hxy _ ih =>
    cases h2 with
    | cons hyz htl => exact List.Forall₂.cons (le_trans hxy hyz) (ih htl)

theorem satAdd_foldl_eq_sum (l : List Nat) (a : Nat) (h : a + l.sum ≤ u32Max) :
    l.foldl satAdd a = a + l.sum := by
  induction l generalizing a with
  | nil => simp
  | cons x xs ih =>
    simp only [List.foldl_cons, List.sum_cons] at *
    rw [satAdd_eq_add a x (by omega), ih (a + x) (by omega)]
    omega

theorem wAdd_foldl_eq_sum (l : List Nat) (a : Nat) (h : a + l.sum ≤ u32Max) :
    l.foldl wAdd a = a + l.sum := by
  induction l generalizing a with
  | nil => simp
  | cons x xs ih =>
    simp only [List.foldl_cons, List.sum_cons] at *
    have hx : wAdd a x = a + x := by
      unfold wAdd wrap32 u32Mod
      unfold u32Max at h
      omega
    rw [hx, ih (a + x) (by omega)]
    omega

theorem eligShrinkSum_le_sum (ws rs ms : List Nat) :
    eligShrinkSum ws rs ms ≤ ws.sum := by
  induction ws generalizing rs ms with
  | nil => simp [eligShrinkSum]
  | cons w ws ih =>
    cases rs with
    | nil => simp [eligShrinkSum]
    | cons cur rs =>
      cases ms with
      | nil => simp [eligShrinkSum]
      | cons mn ms =>
        simp only [eligShrinkSum, List.sum_cons]
        have := ih rs ms
        split <;> omega

theorem eligGrowSum_le_sum (ws rs ms : List Nat) :
    eligGrowSum ws rs ms ≤ ws.sum := by
  induction ws generalizing rs ms with
  | nil => simp [eligGrowSum]
  | cons w ws ih =>
    cases rs with
    | nil => simp [eligGrowSum]
    | cons cur rs =>
      cases ms with
      | nil => simp [eligGrowSum]
      | cons mx ms =>
        simp only [eligGrowSum, List.sum_cons]
        have := ih rs ms
        split <;> omega

theorem satMul_div_le (b w rw : Nat) (hw : 0 < w) (hwrw : w ≤ rw) :
    satMul b w / rw ≤ b := by
  have h1 : satMul b w ≤ b * w := min_le_left _ _
  have h2 : b * w ≤ b * rw := Nat.mul_le_mul_left b hwrw
  calc satMul b w / rw ≤ b * rw / rw := Nat.div_le_div_right (le_trans h1 h2)
    _ = b := Nat.mul_div_cancel b (lt_of_lt_of_le hw hwrw)

/-- Pointwise bounds of a shrink pass: extents never drop below the minima and
never grow. -/
theorem shrinkPass_forall2 (ws rs ms : List Nat) (b rw : Nat)
    (hms : List.Forall₂ (· ≤ ·) ms rs) :
    List.Forall₂ (· ≤ ·) ms (shrinkPass ws rs ms b rw).1
    ∧ List.Forall₂ (· ≤ ·) (shrinkPass ws rs ms b rw).1 rs := by
  induction ws generalizing rs ms b rw with
  | nil =>
    simp only [shrinkPass]
    exact ⟨hms, List.forall₂_same.mpr (fun x _ => le_refl x)⟩
  | cons w ws ih =>
    cases rs with
    | nil =>
      simp only [shrinkPass]
      exact ⟨hms, List.forall₂_same.mpr (fun x _ => le_refl x)⟩
    | cons cur rs =>
      cases ms with
      | nil =>
        simp only [shrinkPass]
        exact ⟨hms, List.forall₂_same.mpr (fun x _ => le_refl x)⟩
      | cons mn ms =>
        cases hms with
        | cons hhd htl =>
          simp only [shrinkPass]
          split
          · have hih := ih rs ms (b - satMul b w / rw) (rw - w) htl
            have h1 : mn ≤ cur - min (satMul b w / rw) (cur - mn) := by
              generalize satMul b w / rw = q
              omega
            have h2 : cur - min (satMul b w / rw) (cur - mn) ≤ cur := by
              generalize satMul b w / rw = q
              omega
            exact ⟨List.Forall₂.cons h1 hih.1, List.Forall₂.cons h2 hih.2⟩
          · have hih := ih rs ms b rw htl
            exact ⟨List.Forall₂.cons hhd hih.1,
              List.Forall₂.cons (le_refl cur) hih.2⟩

/-- The total extent removed by a shrink pass is at most the budget it
consumes. -/
theorem shrinkPass_sum (ws rs ms : List Nat) (b rw : Nat)
    (hrw : eligShrinkSum ws rs ms ≤ rw) :
    rs.sum ≤ (shrinkPass ws rs ms b rw).1.sum + (b - (shrinkPass ws rs ms b rw).2) := by
  induction ws generalizing rs ms b rw with
  | nil => simp [shrinkPass]
  | cons w ws ih =>
    cases rs with
    | nil => simp [shrinkPass]
    | cons cur rs =>
      cases ms with
      | nil => simp [shrinkPass]
      | cons mn ms =>
        simp only [eligShrinkSum] at hrw
        simp only [shrinkPass]
        split
        · rename_i helig
          have htheo : satMul b w / rw ≤ b :=
            satMul_div_le b w rw helig.1 (by split at hrw <;> omega)
          have hrw' : eligShrinkSum ws rs ms ≤ rw - w := by
            split at hrw <;> omega
          have hih := ih rs ms (b - satMul b w / rw) (rw - w) hrw'
          have hsnd := shrinkPass_snd_le ws rs ms (b - satMul b w / rw) (rw - w)
          simp only [List.sum_cons]
          omega
        · rename_i helig
          have hrw' : eligShrinkSum ws rs ms ≤ rw := by
            split at hrw <;> omega
          have hih := ih rs ms b rw hrw'
          simp only [List.sum_cons]
          omega

/-- A slot that is not eligible (weight 0, or already at its minimum) is left
unchanged by a shrink pass. -/
theorem shrinkPass_get?_eq (ws rs ms : List Nat) (b rw : Nat)
    (i w cur mn : Nat) (hw : ws.get? i = some w) (hr : rs.get? i = some cur)
    (hm : ms.get? i = some mn) (hne : ¬(0 < w ∧ mn < cur)) :
    (shrinkPass ws rs ms b rw).1.get? i = some cur := by
  induction ws generalizing rs ms b rw i with
  | nil => simp at hw
  | cons w0 ws ih =>
    cases rs with
    | nil => simp at hr
    | cons cur0 rs =>
      cases ms with
      | nil => simp at hm
      | cons mn0 ms =>
        cases i with
        | zero =>
          simp only [List.get?] at hw hr hm
          injection hw with hw
          injection hr with hr
          injection hm with hm
          subst hw hr hm
          simp only [shrinkPass]
          split
          · exact absurd (by assumption) hne
          · simp
        | succ i =>
          simp only [List.get?] at hw hr hm
          simp only [shrinkPass]
          split
          · simpa using ih rs ms _ _ i hw hr hm
          · simpa using ih rs ms b rw i hw hr hm

/-- Pointwise bounds of a grow pass: extents never exceed the maxima and never
shrink (the maxima being `u32` values). -/
theorem growPass_forall2 (ws rs ms : List Nat) (b rw : Nat)
    (hms : List.Forall₂ (· ≤ ·) rs ms)
    (hmx : ∀ x ∈ ms, x ≤ u32Max) :
    List.Forall₂ (· ≤ ·) (growPass ws rs ms b rw).1 ms
    ∧ List.Forall₂ (· ≤ ·) rs (growPass ws rs ms b rw).1 := by
  induction ws generalizing rs ms b rw with
  | nil =>
    simp only [growPass]
    exact ⟨hms, List.forall₂_same.mpr (fun x _ => le_refl x)⟩
  | cons w ws ih =>
    cases rs with
    | nil =>
      simp only [growPass]
      exact ⟨hms, List.forall₂_same.mpr (fun x _ => le_refl x)⟩
    | cons cur rs =>
      cases ms with
      | nil =>
        simp only [growPass]
        exact ⟨hms, List.forall₂_same.mpr (fun x _ => le_refl x)⟩
      | cons mx ms =>
        cases hms with
        | cons hhd htl =>
          have hmx0 : mx ≤ u32Max := hmx mx (List.mem_cons_self mx ms)
          have hmxtl : ∀ x ∈ ms, x ≤ u32Max :=
            fun x hx => hmx x (List.mem_cons_of_mem mx hx)
          simp only [growPass]
          split
          · rename_i helig
            have hih := ih rs ms (b - satMul b w / rw) (rw - w) htl hmxtl
            have hdiv := Nat.zero_le (satMul b w / rw)
            have h1 : satAdd cur (min (satMul b w / rw) (mx - cur)) ≤ mx := by
              unfold satAdd
              omega
            have h2 : cur ≤ satAdd cur (min (satMul b w / rw) (mx - cur)) := by
              unfold satAdd
              omega
            exact ⟨List.Forall₂.cons h1 hih.1, List.Forall₂.cons h2 hih.2⟩
          · have hih := ih rs ms b rw htl hmxtl
            exact ⟨List.Forall₂.cons hhd hih.1,
              List.Forall₂.cons (le_refl cur) hih.2⟩

/-- The total extent added by a grow pass is at most the budget it
consumes. -/
theorem growPass_sum (ws rs ms : List Nat) (b rw : Nat)
    (hrw : eligGrowSum ws rs ms ≤ rw) :
    (growPass ws rs ms b rw).1.sum ≤ rs.sum + (b - (growPass ws rs ms b rw).2) := by
  induction ws generalizing rs ms b rw with
  | nil => simp [growPass]
  | cons w ws ih =>
    cases rs with
    | nil => simp [growPass]
    | cons cur rs =>
      cases ms with
      | nil => simp [growPass]
      | cons mx ms =>
        simp only [eligGrowSum] at hrw
        simp only [growPass]
        split
        · rename_i helig
          have htheo : satMul b w / rw ≤ b :=
            satMul_div_le b w rw helig.1 (by split at hrw <;> omega)
          have hrw' : eligGrowSum ws rs ms ≤ rw - w := by
            split at hrw <;> omega
          have hih := ih rs ms (b - satMul b w / rw) (rw - w) hrw'
          have hsnd := growPass_snd_le ws rs ms (b - satMul b w / rw) (rw - w)
          have hsat : satAdd cur (min (satMul b w / rw) (mx - cur)) ≤
              cur + min (satMul b w / rw) (mx - cur) := min_le_left _ _
          simp only [List.sum_cons]
          omega
        · rename_i helig
          have hrw' : eligGrowSum ws rs ms ≤ rw := by
            split at hrw <;> omega
          have hih := ih rs ms b rw hrw'
          simp only [List.sum_cons]
          omega

/-- A slot that is not eligible (weight 0, or already at its maximum) is left
unchanged by a grow pass. -/
theorem growPass_get?_eq (ws rs ms : List Nat) (b rw : Nat)
    (i w cur mx : Nat) (hw : ws.get? i = some w) (hr : rs.get? i = some cur)
    (hm : ms.get? i = some mx) (hne : ¬(0 < w ∧ cur < mx)) :
    (growPass ws rs ms b rw).1.get? i = some cur := by
  induction ws generalizing rs ms b rw i with
  | nil => simp at hw
  | cons w0 ws ih =>
    cases rs with
    | nil => simp at hr
    | cons cur0 rs =>
      cases ms with
      | nil => simp at hm
      | cons mx0 ms =>
        cases i with
        | zero =>
          simp only [List.get?] at hw hr hm
          injection hw with hw
          injection hr with hr
          injection hm with hm
          subst hw hr hm
          simp only [growPass]
          split
          · exact absurd (by assumption) hne
          · simp
        | succ i =>
          simp only [List.get?] at hw hr hm
          simp only [growPass]
          split
          · simpa using ih rs ms _ _ i hw hr hm
          · simpa using ih rs ms b rw i hw hr hm

theorem shrinkLoop_eq (ws ms : List Nat) (b : Nat) (rs : List Nat) :
    shrinkLoop ws ms b rs =
      if b = 0 then rs
      else if wrap32 (eligShrinkSum ws rs ms) = 0 then rs
      else if (shrinkPass ws rs ms b (wrap32 (eligShrinkSum ws rs ms))).2 = b
        then (shrinkPass ws rs ms b (wrap32 (eligShrinkSum ws rs ms))).1
        else shrinkLoop ws ms (shrinkPass ws rs ms b (wrap32 (eligShrinkSum ws rs ms))).2
          (shrinkPass ws rs ms b (wrap32 (eligShrinkSum ws rs ms))).1 := by
  rw [shrinkLoop]
  simp only [dite_eq_ite]

theorem growLoop_eq (ws ms : List Nat) (b : Nat) (rs : List Nat) :
    growLoop ws ms b rs =
      if b = 0 then rs
      else if wrap32 (eligGrowSum ws rs ms) = 0 then rs
      else if (growPass ws rs ms b (wrap32 (eligGrowSum ws rs ms))).2 = b
        then (growPass ws rs ms b (wrap32 (eligGrowSum ws rs ms))).1
        else growLoop ws ms (growPass ws rs ms b (wrap32 (eligGrowSum ws rs ms))).2
          (growPass ws rs ms b (wrap32 (eligGrowSum ws rs ms))).1 := by
  rw [growLoop]
  simp only [dite_eq_ite]

/-- Bounds preserved by the whole shrink loop: extents stay between the minima
and the starting extents, and the total extent removed never exceeds the
initial budget. -/
theorem shrinkLoop_invariant (ws ms : List Nat) (hw : ws.sum ≤ u32Max) :
    ∀ b rs, List.Forall₂ (· ≤ ·) ms rs →
      List.Forall₂ (· ≤ ·) ms (shrinkLoop ws ms b rs)
      ∧ List.Forall₂ (· ≤ ·) (shrinkLoop ws ms b rs) rs
      ∧ rs.sum ≤ (shrinkLoop ws ms b rs).sum + b := by
  intro b
  induction b using Nat.strong_induction_on with
  | _ b ih =>
    intro rs hms
    rw [shrinkLoop_eq]
    have hrefl : List.Forall₂ (· ≤ ·) rs rs :=
      List.forall₂_same.mpr (fun x _ => le_refl x)
    have hrw' : eligShrinkSum ws rs ms ≤ wrap32 (eligShrinkSum ws rs ms) := by
      rw [wrap32_eq_self _ (le_trans (eligShrinkSum_le_sum ws rs ms) hw)]
    split_ifs with hb hrw0 hp
    · exact ⟨hms, hrefl, by omega⟩
    · exact ⟨hms, hrefl, by omega⟩
    · have hf := shrinkPass_forall2 ws rs ms b (wrap32 (eligShrinkSum ws rs ms)) hms
      have hsum := shrinkPass_sum ws rs ms b (wrap32 (eligShrinkSum ws rs ms)) hrw'
      exact ⟨hf.1, hf.2, by omega⟩
    · have hf := shrinkPass_forall2 ws rs ms b (wrap32 (eligShrinkSum ws rs ms)) hms
      have hsum := shrinkPass_sum ws rs ms b (wrap32 (eligShrinkSum ws rs ms)) hrw'
      have hsnd := shrinkPass_snd_le ws rs ms b (wrap32 (eligShrinkSum ws rs ms))
      have hlt : (shrinkPass ws rs ms b (wrap32 (eligShrinkSum ws rs ms))).2 < b :=
        Nat.lt_of_le_of_ne hsnd hp
      have hres := ih _ hlt _ hf.1
      exact ⟨hres.1, forall2_le_trans hres.2.1 hf.2, by omega⟩

/-- Bounds preserved by the whole grow loop: extents stay between the starting
extents and the maxima, and the total extent added never exceeds the initial
budget. -/
theorem growLoop_invariant (ws ms : List Nat) (hw : ws.sum ≤ u32Max)
    (hmx : ∀ x ∈ ms, x ≤ u32Max) :
    ∀ b rs, List.Forall₂ (· ≤ ·) rs ms →
      List.Forall₂ (· ≤ ·) (growLoop ws ms b rs) ms
      ∧ List.Forall₂ (· ≤ ·) rs (growLoop ws ms b rs)
      ∧ (growLoop ws ms b rs).sum ≤ rs.sum + b := by
  intro b
  induction b using Nat.strong_induction_on with
  | _ b ih =>
    intro rs hms
    rw [growLoop_eq]
    have hrefl : List.Forall₂ (· ≤ ·) rs rs :=
      List.forall₂_same.mpr (fun x _ => le_refl x)
    have hrw' : eligGrowSum ws rs ms ≤ wrap32 (eligGrowSum ws rs ms) := by
      rw [wrap32_eq_self _ (le_trans (eligGrowSum_le_sum ws rs ms) hw)]
    split_ifs with hb hrw0 hp
    · exact ⟨hms, hrefl, by omega⟩
    · exact ⟨hms, hrefl, by omega⟩
    · have hf := growPass_forall2 ws rs ms b (wrap32 (eligGrowSum ws rs ms)) hms hmx
      have hsum := growPass_sum ws rs ms b (wrap32 (eligGrowSum ws rs ms)) hrw'
      exact ⟨hf.1, hf.2, by omega⟩
    · have hf := growPass_forall2 ws rs ms b (wrap32 (eligGrowSum ws rs ms)) hms hmx
      have hsum := growPass_sum ws rs ms b (wrap32 (eligGrowSum ws rs ms)) hrw'
      have hsnd := growPass_snd_le ws rs ms b (wrap32 (eligGrowSum ws rs ms))
      have hlt : (growPass ws rs ms b (wrap32 (eligGrowSum ws rs ms))).2 < b :=
        Nat.lt_of_le_of_ne hsnd hp
      have hres := ih _ hlt _ hf.1
      exact ⟨hres.1, forall2_le_trans hf.2 hres.2.1, by omega⟩

/-- A slot that is never eligible keeps its extent through the whole shrink
loop. -/
theorem shrinkLoop_get?_eq (ws ms : List Nat) (i w cur mn : Nat)
    (hwi : ws.get? i = some w) (hmi : ms.get? i = some mn)
    (hne : ¬(0 < w ∧ mn < cur)) :
    ∀ b rs, rs.get? i = some cur → (shrinkLoop ws ms b rs).get? i = some cur := by
  intro b
  induction b using Nat.strong_induction_on with
  | _ b ih =>
    intro rs hri
    rw [shrinkLoop_eq]
    split_ifs with hb hrw0 hp
    · exact hri
    · exact hri
    · exact shrinkPass_get?_eq ws rs ms b _ i w cur mn hwi hri hmi hne
    · have hsnd := shrinkPass_snd_le ws rs ms b (wrap32 (eligShrinkSum ws rs ms))
      exact ih _ (Nat.lt_of_le_of_ne hsnd hp) _
        (shrinkPass_get?_eq ws rs ms b _ i w cur mn hwi hri hmi hne)

/-- A slot that is never eligible keeps its extent through the whole grow
loop. -/
theorem growLoop_get?_eq (ws ms : List Nat) (i w cur mx : Nat)
    (hwi : ws.get? i = some w) (hmi : ms.get? i = some mx)
    (hne : ¬(0 < w ∧ cur < mx)) :
    ∀ b rs, rs.get? i = some cur → (growLoop ws ms b rs).get? i = some cur := by
  intro b
  induction b using Nat.strong_induction_on with
  | _ b ih =>
    intro rs hri
    rw [growLoop_eq]
    split_ifs with hb hrw0 hp
    · exact hri
    · exact hri
    · exact growPass_get?_eq ws rs ms b _ i w cur mx hwi hri hmi hne
    · have hsnd := growPass_snd_le ws rs ms b (wrap32 (eligGrowSum ws rs ms))
      exact ih _ (Nat.lt_of_le_of_ne hsnd hp) _
        (growPass_get?_eq ws rs ms b _ i w cur mx hwi hri hmi hne)

/-! ## Fuel-indexed companions of the loops

The loops terminate because every iteration that does not break strictly
decreases the budget, so a fuel equal to the initial budget can never run out;
the fuel versions recurse structurally and therefore evaluate inside the
kernel. They are proved equal to the loops above. -/

/-- `shrinkLoop` with explicit fuel. -/
def shrinkLoopF (ws ms : List Nat) : Nat → Nat → List Nat → List Nat
  | 0, _, rs => rs
  | fuel + 1, budget, rs =>
    if budget = 0 then rs
    else if wrap32 (eligShrinkSum ws rs ms) = 0 then rs
    else if (shrinkPass ws rs ms budget (wrap32 (eligShrinkSum ws rs ms))).2 = budget
      then (shrinkPass ws rs ms budget (wrap32 (eligShrinkSum ws rs ms))).1
      else shrinkLoopF ws ms fuel
        (shrinkPass ws rs ms budget (wrap32 (eligShrinkSum ws rs ms))).2
        (shrinkPass ws rs ms budget (wrap32 (eligShrinkSum ws rs ms))).1

/-- `growLoop` with explicit fuel. -/
def growLoopF (ws ms : List Nat) : Nat → Nat → List Nat → List Nat
  | 0, _, rs => rs
  | fuel + 1, budget, rs =>
    if budget = 0 then rs
    else if wrap32 (eligGrowSum ws rs ms) = 0 then rs
    else if (growPass ws rs ms budget (wrap32 (eligGrowSum ws rs ms))).2 = budget
      then (growPass ws rs ms budget (wrap32 (eligGrowSum ws rs ms))).1
      else growLoopF ws ms fuel
        (growPass ws rs ms budget (wrap32 (eligGrowSum ws rs ms))).2
        (growPass ws rs ms budget (wrap32 (eligGrowSum ws rs ms))).1

/-- `shrinkLoopW` with explicit fuel. -/
def shrinkLoopWF (ws ms : List Nat) : Nat → Nat → List Nat → List Nat
  | 0, _, rs => rs
  | fuel + 1, budget, rs =>
    if budget = 0 then rs
    else if wrap32 (eligShrinkSum ws rs ms) = 0 then rs
    else if (shrinkPassW ws rs ms budget (wrap32 (eligShrinkSum ws rs ms))).2 = budget
      then (shrinkPassW ws rs ms budget (wrap32 (eligShrinkSum ws rs ms))).1
      else shrinkLoopWF ws ms fuel
        (shrinkPassW ws rs ms budget (wrap32 (eligShrinkSum ws rs ms))).2
        (shrinkPassW ws rs ms budget (wrap32 (eligShrinkSum ws rs ms))).1

/-- `growLoopW` with explicit fuel. -/
def growLoopWF (ws ms : List Nat) : Nat → Nat → List Nat → List Nat
  | 0, _, rs => rs
  | fuel + 1, budget, rs =>
    if budget = 0 then rs
    else if wrap32 (eligGrowSum ws rs ms) = 0 then rs
    else if (growPassW ws rs ms budget (wrap32 (eligGrowSum ws rs ms))).2 = budget
      then (growPassW ws rs ms budget (wrap32 (eligGrowSum ws rs ms))).1
      else growLoopWF ws ms fuel
        (growPassW ws rs ms budget (wrap32 (eligGrowSum ws rs ms))).2
        (growPassW ws rs ms budget (wrap32 (eligGrowSum ws rs ms))).1

theorem shrinkLoopWF_eq_loop (ws ms : List Nat) :
    ∀ b fuel rs, b ≤ fuel → shrinkLoopWF ws ms fuel b rs = shrinkLoopW ws ms b rs := by
  intro b
  induction b using Nat.strong_induction_on with
  | _ b ih =>
    intro fuel rs hbf
    cases fuel with
    | zero =>
      have hb : b = 0 := by omega
      subst hb
      rw [shrinkLoopW]
      simp [shrinkLoopWF]
    | succ fuel =>
      rw [shrinkLoopW]
      simp only [shrinkLoopWF, dite_eq_ite]
      split_ifs with h1 h2 h3
      · rfl
      · rfl
      · rfl
      · have hsnd := shrinkPassW_snd_le ws rs ms b (wrap32 (eligShrinkSum ws rs ms))
        exact ih _ (Nat.lt_of_le_of_ne hsnd h3) fuel _ (by omega)

theorem growLoopWF_eq_loop (ws ms : List Nat) :
    ∀ b fuel rs, b ≤ fuel → growLoopWF ws ms fuel b rs = growLoopW ws ms b rs := by
  intro b
  induction b using Nat.strong_induction_on with
  | _ b ih =>
    intro fuel rs hbf
    cases fuel with
    | zero =>
      have hb : b = 0 := by omega
      subst hb
      rw [growLoopW]
      simp [growLoopWF]
    | succ fuel =>
      rw [growLoopW]
      simp only [growLoopWF, dite_eq_ite]
      split_ifs with h1 h2 h3
      · rfl
      · rfl
      · rfl
      · have hsnd := growPassW_snd_le ws rs ms b (wrap32 (eligGrowSum ws rs ms))
        exact ih _ (Nat.lt_of_le_of_ne hsnd h3) fuel _ (by omega)

theorem shrinkLoopF_eq_loop (ws ms : List Nat) :
    ∀ b fuel rs, b ≤ fuel → shrinkLoopF ws ms fuel b rs = shrinkLoop ws ms b rs := by
  intro b
  induction b using Nat.strong_induction_on with
  | _ b ih =>
    intro fuel rs hbf
    cases fuel with
    | zero =>
      have hb : b = 0 := by omega
      subst hb
      rw [shrinkLoop_eq]
      simp [shrinkLoopF]
    | succ fuel =>
      rw [shrinkLoop_eq]
      simp only [shrinkLoopF]
      split_ifs with h1 h2 h3
      · rfl
      · rfl
      · rfl
      · have hsnd := shrinkPass_snd_le ws rs ms b (wrap32 (eligShrinkSum ws rs ms))
        exact ih _ (Nat.lt_of_le_of_ne hsnd h3) fuel _ (by omega)

theorem growLoopF_eq_loop (ws ms : List Nat) :
    ∀ b fuel rs, b ≤ fuel → growLoopF ws ms fuel b rs = growLoop ws ms b rs := by
  intro b
  induction b using Nat.strong_induction_on with
  | _ b ih =>
    intro fuel rs hbf
    cases fuel with
    | zero =>
      have hb : b = 0 := by omega
      subst hb
      rw [growLoop_eq]
      simp [growLoopF]
    | succ fuel =>
      rw [growLoop_eq]
      simp only [growLoopF]
      split_ifs with h1 h2 h3
      · rfl
      · rfl
      · rfl
      · have hsnd := growPass_snd_le ws rs ms b (wrap32 (eligGrowSum ws rs ms))
        exact ih _ (Nat.lt_of_le_of_ne hsnd h3) fuel _ (by omega)

/-- `resolveLinear` with the fuel-indexed loops, for kernel evaluation. -/
def resolveLinearF (slots : List ValueRange) (ws : List Nat) (target : Nat) :
    List Nat :=
  let prefs := slots.map ValueRange.preferred_value
  let totalPref := prefs.foldl satAdd 0
  if target < totalPref then
    let mins := slots.map ValueRange.min_value
    let totalMin := mins.foldl satAdd 0
    if target ≤ totalMin then mins
    else shrinkLoopF ws mins (totalPref - target) (totalPref - target) prefs
  else if target = totalPref then prefs
  else
    let maxs := slots.map ValueRange.max_value
    let totalMax := maxs.foldl satAdd 0
    if totalMax ≤ target then maxs
    else growLoopF ws maxs (target - totalPref) (target - totalPref) prefs

/-- `resolveLinearW` with the fuel-indexed loops, for kernel evaluation. -/
def resolveLinearWF (slots : List ValueRange) (ws : List Nat) (target : Nat) :
    List Nat :=
  let prefs := slots.map ValueRange.preferred_value
  let totalPref := prefs.foldl wAdd 0
  if target < totalPref then
    let mins := slots.map ValueRange.min_value
    if target ≤ mins.sum then mins
    else shrinkLoopWF ws mins (totalPref - target) (totalPref - target) prefs
  else if target = totalPref then prefs
  else
    let maxs := slots.map ValueRange.max_value
    if maxs.sum ≤ target then maxs
    else growLoopWF ws maxs (target - totalPref) (target - totalPref) prefs

theorem resolveLinear_eq_fuel (slots : List ValueRange) (ws : List Nat)
    (target : Nat) : resolveLinear slots ws target = resolveLinearF slots ws target := by
  simp only [resolveLinear, resolveLinearF]
  split_ifs
  · rfl
  · exact (shrinkLoopF_eq_loop ws _ _ _ _ (le_refl _)).symm
  · rfl
  · rfl
  · exact (growLoopF_eq_loop ws _ _ _ _ (le_refl _)).symm

theorem resolveLinearW_eq_fuel (slots : List ValueRange) (ws : List Nat)
    (target : Nat) : resolveLinearW slots ws target = resolveLinearWF slots ws target := by
  simp only [resolveLinearW, resolveLinearWF]
  split_ifs
  · rfl
  · exact (shrinkLoopWF_eq_loop ws _ _ _ _ (le_refl _)).symm
  · rfl
  · rfl
  · exact (growLoopWF_eq_loop ws _ _ _ _ (le_refl _)).symm

theorem forall2_map_le_map {α : Type} (l : List α) (f g : α → Nat)
    (h : ∀ x ∈ l, f x ≤ g x) :
    List.Forall₂ (· ≤ ·) (l.map f) (l.map g) := by
  induction l with
  | nil => exact List.Forall₂.nil
  | cons x xs ih =>
    exact List.Forall₂.cons (h x (List.mem_cons_self x xs))
      (ih (fun y hy => h y (List.mem_cons_of_mem x hy)))

/-! ## C1 -/

/-- C1 (counterexample to the claim as stated): two slots with
`min/preferred = 9/10` and `0/10`, weights `1/1`, target `10 ∈ [Σmin, Σmax] =
[9, 40]`; the single shrink pass subtracts the full theoretical share of the
capped first slot from the budget, so the resolved extents `[9, 5]` sum to
`14 ≠ 10`. -/
theorem C1_distribution_sum_counterexample :
    (([⟨10, 9, 20⟩, ⟨10, 0, 20⟩] : List ValueRange).map ValueRange.min_value).sum ≤ 10
    ∧ 10 ≤ (([⟨10, 9, 20⟩, ⟨10, 0, 20⟩] : List ValueRange).map ValueRange.max_value).sum
    ∧ (resolveLinear [⟨10, 9, 20⟩, ⟨10, 0, 20⟩] [1, 1] 10).sum ≠ 10 := by
  refine ⟨by decide, by decide, ?_⟩
  rw [resolveLinear_eq_fuel]
  decide

/-- C1 (amended): for well-formed slots (`min ≤ preferred ≤ max`) with `u32`
sums, a target strictly below `Σmin` forces every slot to its minimum and a
target strictly above `Σmax` forces every slot to its maximum; for a target in
`[Σmin, Σmax]` the resolved extents sum to a value between the target and
`Σpreferred` (inclusive, in either order) — but not necessarily to the target
exactly, since a pass deducts each slot's full theoretical share from the
budget even when the slot could only absorb part of it. -/
theorem C1_distribution_sum (slots : List ValueRange) (ws : List Nat) (t : Nat)
    (hwf : ∀ s ∈ slots, s.min_value ≤ s.preferred_value ∧ s.preferred_value ≤ s.max_value)
    (hmax : (slots.map ValueRange.max_value).sum ≤ u32Max)
    (hw : ws.sum ≤ u32Max) :
    (t < (slots.map ValueRange.min_value).sum →
        resolveLinear slots ws t = slots.map ValueRange.min_value)
    ∧ ((slots.map ValueRange.max_value).sum < t →
        resolveLinear slots ws t = slots.map ValueRange.max_value)
    ∧ ((slots.map ValueRange.min_value).sum ≤ t →
        t ≤ (slots.map ValueRange.max_value).sum →
        min t (slots.map ValueRange.preferred_value).sum ≤ (resolveLinear slots ws t).sum
        ∧ (resolveLinear slots ws t).sum ≤ max t (slots.map ValueRange.preferred_value).sum) := by
  have hmp := forall2_map_le_map slots ValueRange.min_value ValueRange.preferred_value
    (fun s hs => (hwf s hs).1)
  have hpm := forall2_map_le_map slots ValueRange.preferred_value ValueRange.max_value
    (fun s hs => (hwf s hs).2)
  have hMP : (slots.map ValueRange.min_value).sum
      ≤ (slots.map ValueRange.preferred_value).sum := hmp.sum_le_sum
  have hPM : (slots.map ValueRange.preferred_value).sum
      ≤ (slots.map ValueRange.max_value).sum := hpm.sum_le_sum
  have hfoldP : (slots.map ValueRange.preferred_value).foldl satAdd 0
      = (slots.map ValueRange.preferred_value).sum := by
    rw [satAdd_foldl_eq_sum _ 0 (by omega)]
    omega
  have hfoldM : (slots.map ValueRange.min_value).foldl satAdd 0
      = (slots.map ValueRange.min_value).sum := by
    rw [satAdd_foldl_eq_sum _ 0 (by omega)]
    omega
  have hfoldX : (slots.map ValueRange.max_value).foldl satAdd 0
      = (slots.map ValueRange.max_value).sum := by
    rw [satAdd_foldl_eq_sum _ 0 (by omega)]
    omega
  refine ⟨?_, ?_, ?_⟩
  · intro ht
    simp only [resolveLinear]
    rw [hfoldP, hfoldM]
    rw [if_pos (by omega), if_pos (by omega)]
  · intro ht
    simp only [resolveLinear]
    rw [hfoldP, hfoldX]
    rw [if_neg (by omega)]
    rw [if_neg (by omega)]
    rw [if_pos (by omega)]
  · intro h1 h2
    simp only [resolveLinear]
    rw [hfoldP, hfoldM, hfoldX]
    by_cases hlt : t < (slots.map ValueRange.preferred_value).sum
    · rw [if_pos hlt]
      by_cases hm : t ≤ (slots.map ValueRange.min_value).sum
      · rw [if_pos hm]
        constructor
        · omega
        · omega
      · rw [if_neg hm]
        have hinv := shrinkLoop_invariant ws (slots.map ValueRange.min_value) hw
          ((slots.map ValueRange.preferred_value).sum - t)
          (slots.map ValueRange.preferred_value) hmp
        have hub : (shrinkLoop ws (slots.map ValueRange.min_value)
            ((slots.map ValueRange.preferred_value).sum - t)
            (slots.map ValueRange.preferred_value)).sum
            ≤ (slots.map ValueRange.preferred_value).sum := hinv.2.1.sum_le_sum
        have hlb := hinv.2.2
        constructor
        · omega
        · omega
    · rw [if_neg hlt]
      by_cases heq : t = (slots.map ValueRange.preferred_value).sum
      · rw [if_pos heq]
        constructor
        · omega
        · omega
      · rw [if_neg heq]
        by_cases hx : (slots.map ValueRange.max_value).sum ≤ t
        · rw [if_pos hx]
          constructor
          · omega
          · omega
        · rw [if_neg hx]
          have hmxel : ∀ x ∈ slots.map ValueRange.max_value, x ≤ u32Max :=
            fun x hx' =>
              le_trans (List.single_le_sum (fun _ _ => Nat.zero_le _) x hx') hmax
          have hinv := growLoop_invariant ws (slots.map ValueRange.max_value) hw hmxel
            (t - (slots.map ValueRange.preferred_value).sum)
            (slots.map ValueRange.preferred_value) hpm
          have hlb : (slots.map ValueRange.preferred_value).sum
              ≤ (growLoop ws (slots.map ValueRange.max_value)
                (t - (slots.map ValueRange.preferred_value).sum)
                (slots.map ValueRange.preferred_value)).sum := hinv.2.1.sum_le_sum
          have hub := hinv.2.2
          constructor
          · omega
          · omega

/-- Witness for `C1_distribution_sum`: the spec scenario, three slots with
preferred 10/20/10, minima 5, maxima 100, weights 1, target 30; the resolved
extents are `[7, 17, 6]`, which sum to exactly 30. -/
theorem C1_distribution_sum_witness :
    (∀ s ∈ ([⟨10, 5, 100⟩, ⟨20, 5, 100⟩, ⟨10, 5, 100⟩] : List ValueRange),
        s.min_value ≤ s.preferred_value ∧ s.preferred_value ≤ s.max_value)
    ∧ (min 30 ((([⟨10, 5, 100⟩, ⟨20, 5, 100⟩, ⟨10, 5, 100⟩] : List ValueRange).map
          ValueRange.preferred_value).sum)
        ≤ (resolveLinear [⟨10, 5, 100⟩, ⟨20, 5, 100⟩, ⟨10, 5, 100⟩] [1, 1, 1] 30).sum
      ∧ (resolveLinear [⟨10, 5, 100⟩, ⟨20, 5, 100⟩, ⟨10, 5, 100⟩] [1, 1, 1] 30).sum
        ≤ max 30 ((([⟨10, 5, 100⟩, ⟨20, 5, 100⟩, ⟨10, 5, 100⟩] : List ValueRange).map
          ValueRange.preferred_value).sum))
    ∧ resolveLinear [⟨10, 5, 100⟩, ⟨20, 5, 100⟩, ⟨10, 5, 100⟩] [1, 1, 1] 30 = [7, 17, 6] :=
  ⟨by decide,
    (C1_distribution_sum [⟨10, 5, 100⟩, ⟨20, 5, 100⟩, ⟨10, 5, 100⟩] [1, 1, 1] 30
      (by decide) (by decide) (by decide)).2.2 (by decide) (by decide),
    by rw [resolveLinear_eq_fuel]; decide⟩

/-! ## C2 -/

/-- C2 (counterexample to the claim as stated): in the pass on extents
`[10, 10]` with minima `[9, 0]`, weights `[1, 1]` and budget 10, the total
extent actually removed is `6`, but the budget is reduced by `10` (the full
theoretical shares) — the amounts actually applied are not what is subtracted
from the budget, and the shortfall at the capped slot is not redistributed. -/
theorem C2_shrink_pass_counterexample :
    (shrinkPass [1, 1] [10, 10] [9, 0] 10 2).1 = [9, 5]
    ∧ (shrinkPass [1, 1] [10, 10] [9, 0] 10 2).2 = 0
    ∧ ([10, 10] : List Nat).sum - (shrinkPass [1, 1] [10, 10] [9, 0] 10 2).1.sum = 6
    ∧ 10 - (shrinkPass [1, 1] [10, 10] [9, 0] 10 2).2 ≠ 6 := by
  decide

/-- C2 (amended): in each pass of the shrink loop only slots with weight > 0
and extent above their minimum participate; each participating slot's extent
drops by `min(theoretical share, extent − minimum)` and never below its
minimum; non-participating slots are untouched; and the budget is reduced by
the full theoretical shares, so the amount removed from the extents is at most
(not exactly) the amount removed from the budget — budget a capped slot could
not absorb is consumed, not redistributed. -/
theorem C2_shrink_pass (ws rs ms : List Nat) (b rw : Nat)
    (hms : List.Forall₂ (· ≤ ·) ms rs)
    (hrw : eligShrinkSum ws rs ms ≤ rw) :
    (shrinkPass ws rs ms b rw).2 ≤ b
    ∧ List.Forall₂ (· ≤ ·) ms (shrinkPass ws rs ms b rw).1
    ∧ List.Forall₂ (· ≤ ·) (shrinkPass ws rs ms b rw).1 rs
    ∧ rs.sum - (shrinkPass ws rs ms b rw).1.sum ≤ b - (shrinkPass ws rs ms b rw).2
    ∧ (∀ i w cur mn, ws.get? i = some w → rs.get? i = some cur →
        ms.get? i = some mn → ¬(0 < w ∧ mn < cur) →
        (shrinkPass ws rs ms b rw).1.get? i = some cur) := by
  have hf := shrinkPass_forall2 ws rs ms b rw hms
  have hsum := shrinkPass_sum ws rs ms b rw hrw
  have hle : (shrinkPass ws rs ms b rw).1.sum ≤ rs.sum := hf.2.sum_le_sum
  exact ⟨shrinkPass_snd_le ws rs ms b rw, hf.1, hf.2, by omega,
    fun i w cur mn hwi hri hmi hne =>
      shrinkPass_get?_eq ws rs ms b rw i w cur mn hwi hri hmi hne⟩

/-- Witness for `C2_shrink_pass` at the spec scenario's first pass: extents
`[10, 20, 10]`, minima `[5, 5, 5]`, weights `[1, 1, 1]`, budget 10. -/
theorem C2_shrink_pass_witness :
    List.Forall₂ (· ≤ ·) [5, 5, 5] [10, 20, 10]
    ∧ (shrinkPass [1, 1, 1] [10, 20, 10] [5, 5, 5] 10 3).2 ≤ 10
    ∧ ([10, 20, 10] : List Nat).sum - (shrinkPass [1, 1, 1] [10, 20, 10] [5, 5, 5] 10 3).1.sum
      ≤ 10 - (shrinkPass [1, 1, 1] [10, 20, 10] [5, 5, 5] 10 3).2 := by
  have h := C2_shrink_pass [1, 1, 1] [10, 20, 10] [5, 5, 5] 10 3
    (by decide) (by decide)
  exact ⟨by decide, h.1, h.2.2.2.1⟩

/-! ## C3 -/

/-- C3 (counterexample to the claim as stated): a single weight-0 slot with
preferred 10, minimum 5, maximum 20. With target 3 the forced-minimum branch
resolves it to 5, and with target 100 the forced-maximum branch resolves it to
20 — not to its preferred 10. -/
theorem C3_weight_zero_counterexample :
    resolveLinear [⟨10, 5, 20⟩] [0] 3 = [5]
    ∧ resolveLinear [⟨10, 5, 20⟩] [0] 100 = [20]
    ∧ (5 : Nat) ≠ 10 ∧ (20 : Nat) ≠ 10 := by
  refine ⟨?_, ?_, by decide, by decide⟩
  · rw [resolveLinear_eq_fuel]
    decide
  · rw [resolveLinear_eq_fuel]
    decide

/-- C3 (amended): a weight-0 slot resolves to its preferred extent in every
case except the two forced branches (target at or below the saturating sum of
minima while below the sum of preferences, or target at or above the
saturating sum of maxima while above the sum of preferences), where it is
forced to its minimum resp. maximum like every other slot. -/
theorem C3_weight_zero_preferred (slots : List ValueRange) (ws : List Nat)
    (t i : Nat) (hlen : ws.length = slots.length) (hw0 : ws.get? i = some 0)
    (hnmin : ¬(t < (slots.map ValueRange.preferred_value).foldl satAdd 0
      ∧ t ≤ (slots.map ValueRange.min_value).foldl satAdd 0))
    (hnmax : ¬((slots.map ValueRange.preferred_value).foldl satAdd 0 < t
      ∧ (slots.map ValueRange.max_value).foldl satAdd 0 ≤ t)) :
    (resolveLinear slots ws t).get? i
      = (slots.map ValueRange.preferred_value).get? i := by
  have hi : i < ws.length := List.get?_eq_some.mp hw0 |>.1
  simp only [resolveLinear]
  by_cases hlt : t < (slots.map ValueRange.preferred_value).foldl satAdd 0
  · rw [if_pos hlt]
    have hmin : ¬(t ≤ (slots.map ValueRange.min_value).foldl satAdd 0) := by
      intro hc
      exact hnmin ⟨hlt, hc⟩
    rw [if_neg hmin]
    cases hpi : (slots.map ValueRange.preferred_value).get? i with
    | none =>
      have h1 := List.get?_eq_none.mp hpi
      simp only [List.length_map] at h1
      omega
    | some cur =>
      cases hmi : (slots.map ValueRange.min_value).get? i with
      | none =>
        have h1 := List.get?_eq_none.mp hmi
        have h2 := List.get?_eq_some.mp hpi |>.1
        simp only [List.length_map] at h1 h2
        omega
      | some mn =>
        exact shrinkLoop_get?_eq ws (slots.map ValueRange.min_value) i 0 cur mn
          hw0 hmi (by simp) _ _ hpi
  · rw [if_neg hlt]
    by_cases heq : t = (slots.map ValueRange.preferred_value).foldl satAdd 0
    · rw [if_pos heq]
    · rw [if_neg heq]
      have hmax : ¬((slots.map ValueRange.max_value).foldl satAdd 0 ≤ t) := by
        intro hc
        exact hnmax ⟨by omega, hc⟩
      rw [if_neg hmax]
      cases hpi : (slots.map ValueRange.preferred_value).get? i with
      | none =>
        have h1 := List.get?_eq_none.mp hpi
        simp only [List.length_map] at h1
        omega
      | some cur =>
        cases hmi : (slots.map ValueRange.max_value).get? i with
        | none =>
          have h1 := List.get?_eq_none.mp hmi
          have h2 := List.get?_eq_some.mp hpi |>.1
          simp only [List.length_map] at h1 h2
          omega
        | some mx =>
          exact growLoop_get?_eq ws (slots.map ValueRange.max_value) i 0 cur mx
            hw0 hmi (by simp) _ _ hpi

/-- Witness for `C3_weight_zero_preferred`: two slots with preferred 10,
minimum 5, maximum 20, weights 0 and 1, target 12 (a genuine shrink via the
loop); the weight-0 slot keeps its preferred extent 10. -/
theorem C3_weight_zero_preferred_witness :
    ([0, 1] : List Nat).get? 0 = some 0
    ∧ (resolveLinear [⟨10, 5, 20⟩, ⟨10, 5, 20⟩] [0, 1] 12).get? 0
      = (([⟨10, 5, 20⟩, ⟨10, 5, 20⟩] : List ValueRange).map
          ValueRange.preferred_value).get? 0 :=
  ⟨by decide,
    C3_weight_zero_preferred [⟨10, 5, 20⟩, ⟨10, 5, 20⟩] [0, 1] 12 0
      (by decide) (by decide) (by decide) (by decide)⟩

/-! ## C10: lemmas relating the two copies of the algorithm -/

theorem shrinkLoopW_eq (ws ms : List Nat) (b : Nat) (rs : List Nat) :
    shrinkLoopW ws ms b rs =
      if b = 0 then rs
      else if wrap32 (eligShrinkSum ws rs ms) = 0 then rs
      else if (shrinkPassW ws rs ms b (wrap32 (eligShrinkSum ws rs ms))).2 = b
        then (shrinkPassW ws rs ms b (wrap32 (eligShrinkSum ws rs ms))).1
        else shrinkLoopW ws ms (shrinkPassW ws rs ms b (wrap32 (eligShrinkSum ws rs ms))).2
          (shrinkPassW ws rs ms b (wrap32 (eligShrinkSum ws rs ms))).1 := by
  rw [shrinkLoopW]
  simp only [dite_eq_ite]

theorem growLoopW_eq (ws ms : List Nat) (b : Nat) (rs : List Nat) :
    growLoopW ws ms b rs =
      if b = 0 then rs
      else if wrap32 (eligGrowSum ws rs ms) = 0 then rs
      else if (growPassW ws rs ms b (wrap32 (eligGrowSum ws rs ms))).2 = b
        then (growPassW ws rs ms b (wrap32 (eligGrowSum ws rs ms))).1
        else growLoopW ws ms (growPassW ws rs ms b (wrap32 (eligGrowSum ws rs ms))).2
          (growPassW ws rs ms b (wrap32 (eligGrowSum ws rs ms))).1 := by
  rw [growLoopW]
  simp only [dite_eq_ite]

/-- As long as the running product `budget * weight` fits in `u32`, the
plain-`u32` shrink pass of `lib.rs` computes exactly what the saturating pass
of `linear.rs` computes. -/
theorem shrinkPassW_eq_pass (B0 : Nat) (ws : List Nat)
    (hBw : ∀ w ∈ ws, B0 * w ≤ u32Max) :
    ∀ rs ms b rw, b ≤ B0 → shrinkPassW ws rs ms b rw = shrinkPass ws rs ms b rw := by
  induction ws with
  | nil => intro rs ms b rw _; rfl
  | cons w ws ih =>
    intro rs ms b rw hb
    cases rs with
    | nil => rfl
    | cons cur rs =>
      cases ms with
      | nil => rfl
      | cons mn ms =>
        have hBw' : ∀ w' ∈ ws, B0 * w' ≤ u32Max :=
          fun w' hw' => hBw w' (List.mem_cons_of_mem w hw')
        have hbw : b * w ≤ u32Max := by
          have h1 : b * w ≤ B0 * w := Nat.mul_le_mul_right w hb
          have h2 := hBw w (List.mem_cons_self w ws)
          omega
        have htheo : wrap32 (b * w) = satMul b w := by
          rw [wrap32_eq_self _ hbw, satMul_eq_mul _ _ hbw]
        simp only [shrinkPassW, shrinkPass, htheo]
        split
        · rw [ih hBw' rs ms (b - satMul b w / rw) (rw - w)
            (le_trans (Nat.sub_le b _) hb)]
        · rw [ih hBw' rs ms b rw hb]

/-- As long as the running product fits in `u32` and every maximum is a `u32`
value, the plain-`u32` grow pass of `lib.rs` computes exactly what the
saturating pass of `linear.rs` computes. -/
theorem growPassW_eq_pass (B0 : Nat) (ws : List Nat)
    (hBw : ∀ w ∈ ws, B0 * w ≤ u32Max) :
    ∀ rs ms b rw, (∀ x ∈ ms, x ≤ u32Max) → b ≤ B0 →
      growPassW ws rs ms b rw = growPass ws rs ms b rw := by
  induction ws with
  | nil => intro rs ms b rw _ _; rfl
  | cons w ws ih =>
    intro rs ms b rw hmx hb
    cases rs with
    | nil => rfl
    | cons cur rs =>
      cases ms with
      | nil => rfl
      | cons mx ms =>
        have hBw' : ∀ w' ∈ ws, B0 * w' ≤ u32Max :=
          fun w' hw' => hBw w' (List.mem_cons_of_mem w hw')
        have hmx0 : mx ≤ u32Max := hmx mx (List.mem_cons_self mx ms)
        have hmxtl : ∀ x ∈ ms, x ≤ u32Max :=
          fun x hx => hmx x (List.mem_cons_of_mem mx hx)
        have hbw : b * w ≤ u32Max := by
          have h1 : b * w ≤ B0 * w := Nat.mul_le_mul_right w hb
          have h2 := hBw w (List.mem_cons_self w ws)
          omega
        have htheo : wrap32 (b * w) = satMul b w := by
          rw [wrap32_eq_self _ hbw, satMul_eq_mul _ _ hbw]
        simp only [growPassW, growPass, htheo]
        split
        · rename_i helig
          have hupd : wrap32 (cur + min (satMul b w / rw) (mx - cur))
              = satAdd cur (min (satMul b w / rw) (mx - cur)) := by
            have hsel : min (satMul b w / rw) (mx - cur) ≤ mx - cur :=
              min_le_right _ _
            rw [wrap32_eq_self _ (by omega), satAdd_eq_add _ _ (by omega)]
          rw [hupd, ih hBw' rs ms (b - satMul b w / rw) (rw - w) hmxtl
            (le_trans (Nat.sub_le b _) hb)]
        · rw [ih hBw' rs ms b rw hmxtl hb]

/-- Loop-level equivalence for the shrink loops of the two copies. -/
theorem shrinkLoopW_eq_sat (B0 : Nat) (ws ms : List Nat)
    (hBw : ∀ w ∈ ws, B0 * w ≤ u32Max) :
    ∀ b rs, b ≤ B0 → shrinkLoopW ws ms b rs = shrinkLoop ws ms b rs := by
  intro b
  induction b using Nat.strong_induction_on with
  | _ b ih =>
    intro rs hb
    rw [shrinkLoopW_eq, shrinkLoop_eq,
      shrinkPassW_eq_pass B0 ws hBw rs ms b (wrap32 (eligShrinkSum ws rs ms)) hb]
    split_ifs with h1 h2 h3
    · rfl
    · rfl
    · rfl
    · have hsnd := shrinkPass_snd_le ws rs ms b (wrap32 (eligShrinkSum ws rs ms))
      exact ih _ (Nat.lt_of_le_of_ne hsnd h3) _ (by omega)

/-- Loop-level equivalence for the grow loops of the two copies. -/
theorem growLoopW_eq_sat (B0 : Nat) (ws ms : List Nat)
    (hBw : ∀ w ∈ ws, B0 * w ≤ u32Max) (hmx : ∀ x ∈ ms, x ≤ u32Max) :
    ∀ b rs, b ≤ B0 → growLoopW ws ms b rs = growLoop ws ms b rs := by
  intro b
  induction b using Nat.strong_induction_on with
  | _ b ih =>
    intro rs hb
    rw [growLoopW_eq, growLoop_eq,
      growPassW_eq_pass B0 ws hBw rs ms b (wrap32 (eligGrowSum ws rs ms)) hmx hb]
    split_ifs with h1 h2 h3
    · rfl
    · rfl
    · rfl
    · have hsnd := growPass_snd_le ws rs ms b (wrap32 (eligGrowSum ws rs ms))
      exact ih _ (Nat.lt_of_le_of_ne hsnd h3) _ (by omega)

/-! ## C10: a size bound on the resolved extents, for the placement step -/

/-- A shrink pass never increases any extent (no hypotheses needed). -/
theorem shrinkPass_forall2_upper (ws : List Nat) :
    ∀ rs ms b rw, List.Forall₂ (· ≤ ·) (shrinkPass ws rs ms b rw).1 rs := by
  induction ws with
  | nil =>
    intro rs ms b rw
    exact List.forall₂_same.mpr (fun x _ => le_refl x)
  | cons w ws ih =>
    intro rs ms b rw
    cases rs with
    | nil => exact List.forall₂_same.mpr (fun x _ => le_refl x)
    | cons cur rs =>
      cases ms with
      | nil => exact List.forall₂_same.mpr (fun x _ => le_refl x)
      | cons mn ms =>
        simp only [shrinkPass]
        split
        · exact List.Forall₂.cons (Nat.sub_le cur _) (ih ..)
        · exact List.Forall₂.cons (le_refl cur) (ih ..)

/-- The whole shrink loop never increases any extent. -/
theorem shrinkLoop_forall2_upper (ws ms : List Nat) :
    ∀ b rs, List.Forall₂ (· ≤ ·) (shrinkLoop ws ms b rs) rs := by
  intro b
  induction b using Nat.strong_induction_on with
  | _ b ih =>
    intro rs
    rw [shrinkLoop_eq]
    split_ifs with h1 h2 h3
    · exact List.forall₂_same.mpr (fun x _ => le_refl x)
    · exact List.forall₂_same.mpr (fun x _ => le_refl x)
    · exact shrinkPass_forall2_upper ws rs ms b _
    · have hsnd := shrinkPass_snd_le ws rs ms b (wrap32 (eligShrinkSum ws rs ms))
      exact forall2_le_trans (ih _ (Nat.lt_of_le_of_ne hsnd h3) _)
        (shrinkPass_forall2_upper ws rs ms b _)

/-- A grow pass keeps every extent below any per-slot cap that dominates both
the current extents and the maxima. -/
theorem growPass_forall2_cap (ws : List Nat) :
    ∀ rs ms ks b rw, List.Forall₂ (· ≤ ·) rs ks → List.Forall₂ (· ≤ ·) ms ks →
      List.Forall₂ (· ≤ ·) (growPass ws rs ms b rw).1 ks := by
  induction ws with
  | nil =>
    intro rs ms ks b rw hrs _
    exact hrs
  | cons w ws ih =>
    intro rs ms ks b rw hrs hms
    cases rs with
    | nil => exact hrs
    | cons cur rs =>
      cases ms with
      | nil => exact hrs
      | cons mx ms =>
        cases ks with
        | nil => cases hrs
        | cons k ks =>
          cases hrs with
          | cons hrk hrstl =>
            cases hms with
            | cons hmk hmstl =>
              simp only [growPass]
              split
              · rename_i helig
                have hsel : min (satMul b w / rw) (mx - cur) ≤ mx - cur :=
                  min_le_right _ _
                have hhd : satAdd cur (min (satMul b w / rw) (mx - cur)) ≤ k := by
                  unfold satAdd
                  omega
                exact List.Forall₂.cons hhd (ih rs ms ks _ _ hrstl hmstl)
              · exact List.Forall₂.cons hrk (ih rs ms ks b rw hrstl hmstl)

/-- The whole grow loop keeps every extent below such a cap. -/
theorem growLoop_forall2_cap (ws ms ks : List Nat)
    (hms : List.Forall₂ (· ≤ ·) ms ks) :
    ∀ b rs, List.Forall₂ (· ≤ ·) rs ks →
      List.Forall₂ (· ≤ ·) (growLoop ws ms b rs) ks := by
  intro b
  induction b using Nat.strong_induction_on with
  | _ b ih =>
    intro rs hrs
    rw [growLoop_eq]
    split_ifs with h1 h2 h3
    · exact hrs
    · exact hrs
    · exact growPass_forall2_cap ws rs ms ks b _ hrs hms
    · have hsnd := growPass_snd_le ws rs ms b (wrap32 (eligGrowSum ws rs ms))
      exact ih _ (Nat.lt_of_le_of_ne hsnd h3) _
        (growPass_forall2_cap ws rs ms ks b _ hrs hms)

theorem map_max_sum_le {α : Type} (l : List α) (f g : α → Nat) :
    (l.map (fun s => max (f s) (g s))).sum ≤ (l.map f).sum + (l.map g).sum := by
  induction l with
  | nil => simp
  | cons x xs ih =>
    simp only [List.map_cons, List.sum_cons]
    have h1 : max (f x) (g x) ≤ f x + g x := by omega
    omega

/-- The sum of the extents resolved by either branch of `resolveLinear` is at
most the sum of all preferred, minimum and maximum extents. -/
theorem resolveLinear_sum_le (slots : List ValueRange) (ws : List Nat) (t : Nat) :
    (resolveLinear slots ws t).sum
      ≤ (slots.map ValueRange.preferred_value).sum
        + (slots.map ValueRange.min_value).sum
        + (slots.map ValueRange.max_value).sum := by
  simp only [resolveLinear]
  split_ifs with h1 h2 h3 h4
  · omega
  · have hub := (shrinkLoop_forall2_upper ws (slots.map ValueRange.min_value)
      ((slots.map ValueRange.preferred_value).foldl satAdd 0 - t)
      (slots.map ValueRange.preferred_value)).sum_le_sum
    omega
  · omega
  · omega
  · have hcap := (growLoop_forall2_cap ws (slots.map ValueRange.max_value)
      (slots.map (fun s => max s.preferred_value s.max_value))
      (forall2_map_le_map slots ValueRange.max_value _
        (fun s _ => le_max_right s.preferred_value s.max_value))
      (t - (slots.map ValueRange.preferred_value).foldl satAdd 0)
      (slots.map ValueRange.preferred_value)
      (forall2_map_le_map slots ValueRange.preferred_value _
        (fun s _ => le_max_left s.preferred_value s.max_value))).sum_le_sum
    have hK := map_max_sum_le slots ValueRange.preferred_value ValueRange.max_value
    omega

/-- If the extents are `i32`-small and the running offsets stay inside the
`i32` range, the saturating and the wrapping placement folds agree. -/
theorem placed_eq (ls : List Nat) :
    ∀ x : Int, i32Lo ≤ x → x + (ls.sum : Int) ≤ i32Max → ls.sum ≤ 2147483647 →
      placedSat x ls = placedW x ls := by
  induction ls with
  | nil => intro x _ _ _; rfl
  | cons l ls ih =>
    intro x h1 h2 h3
    simp only [List.sum_cons] at h2 h3
    simp only [i32Lo] at h1
    simp only [i32Max] at h2
    have hl : l ≤ 2147483647 := by omega
    have hcast : asI32 l = (l : Int) := asI32_eq_ofNat l (by omega)
    have hxl1 : i32Lo ≤ x + (l : Int) := by
      simp only [i32Lo]
      omega
    have hxl2 : x + (l : Int) ≤ i32Max := by
      simp only [i32Max]
      omega
    have hsat : satAddI32 x (asI32 l) = x + (l : Int) := by
      rw [hcast]
      exact satAddI32_eq_add x l hxl1 hxl2
    have hwrap : wrapI32 (x + asI32 l) = x + (l : Int) := by
      rw [hcast]
      exact wrapI32_eq_self _ hxl1 hxl2
    simp only [placedSat, placedW, hsat, hwrap]
    refine congrArg _ (ih (x + (l : Int)) hxl1 ?_ (by omega))
    simp only [i32Max]
    omega

/-- C10: on every input whose running sums of preferred/min/max extents fit in
`u32`, whose product `budget × weight` fits in `u32`, and whose along-offsets
stay inside `i32`, the plain-`u32` distribution algorithm of `lib.rs` resolves
exactly the same per-slot along-extents and produces exactly the same
placements (along-offset and along-extent per slot) as the `Saturating<u32>`
algorithm of `linear.rs`. -/
theorem C10_lib_linear_equivalent (slots : List ValueRange) (ws : List Nat)
    (t : Nat) (x : Int)
    (hpref : (slots.map ValueRange.preferred_value).sum ≤ u32Max)
    (hmin : (slots.map ValueRange.min_value).sum ≤ u32Max)
    (hmax : (slots.map ValueRange.max_value).sum ≤ u32Max)
    (hbw : max ((slots.map ValueRange.preferred_value).sum) t * ws.sum ≤ u32Max)
    (hx1 : i32Lo ≤ x)
    (hsz : (slots.map ValueRange.preferred_value).sum
      + (slots.map ValueRange.min_value).sum
      + (slots.map ValueRange.max_value).sum ≤ 2147483647)
    (hx2 : x + (((slots.map ValueRange.preferred_value).sum
      + (slots.map ValueRange.min_value).sum
      + (slots.map ValueRange.max_value).sum : Nat) : Int) ≤ i32Max) :
    resolveLinearW slots ws t = resolveLinear slots ws t
    ∧ placedW x (resolveLinearW slots ws t) = placedSat x (resolveLinear slots ws t) := by
  have hfoldP : (slots.map ValueRange.preferred_value).foldl satAdd 0
      = (slots.map ValueRange.preferred_value).sum := by
    rw [satAdd_foldl_eq_sum _ 0 (by omega)]
    omega
  have hfoldPW : (slots.map ValueRange.preferred_value).foldl wAdd 0
      = (slots.map ValueRange.preferred_value).sum := by
    rw [wAdd_foldl_eq_sum _ 0 (by omega)]
    omega
  have hfoldM : (slots.map ValueRange.min_value).foldl satAdd 0
      = (slots.map ValueRange.min_value).sum := by
    rw [satAdd_foldl_eq_sum _ 0 (by omega)]
    omega
  have hfoldX : (slots.map ValueRange.max_value).foldl satAdd 0
      = (slots.map ValueRange.max_value).sum := by
    rw [satAdd_foldl_eq_sum _ 0 (by omega)]
    omega
  have hBw : ∀ w' ∈ ws,
      max ((slots.map ValueRange.preferred_value).sum) t * w' ≤ u32Max := by
    intro w' hw'
    have h1 : w' ≤ ws.sum := List.single_le_sum (fun _ _ => Nat.zero_le _) w' hw'
    have h2 : max ((slots.map ValueRange.preferred_value).sum) t * w'
        ≤ max ((slots.map ValueRange.preferred_value).sum) t * ws.sum :=
      Nat.mul_le_mul_left _ h1
    omega
  have hmxel : ∀ x' ∈ slots.map ValueRange.max_value, x' ≤ u32Max :=
    fun x' hx' =>
      le_trans (List.single_le_sum (fun _ _ => Nat.zero_le _) x' hx') hmax
  have heq : resolveLinearW slots ws t = resolveLinear slots ws t := by
    simp only [resolveLinear, resolveLinearW]
    rw [hfoldP, hfoldPW, hfoldM, hfoldX]
    split_ifs with h1 h2 h3 h4
    · rfl
    · exact shrinkLoopW_eq_sat (max ((slots.map ValueRange.preferred_value).sum) t)
        ws (slots.map ValueRange.min_value) hBw _ _
        (le_trans (Nat.sub_le _ _) (le_max_left _ _))
    · rfl
    · rfl
    · exact growLoopW_eq_sat (max ((slots.map ValueRange.preferred_value).sum) t)
        ws (slots.map ValueRange.max_value) hBw hmxel _ _
        (le_trans (Nat.sub_le _ _) (le_max_right _ _))
  refine ⟨heq, ?_⟩
  rw [heq]
  have hsum := resolveLinear_sum_le slots ws t
  refine (placed_eq _ x hx1 ?_ ?_).symm
  · simp only [i32Max] at hx2 ⊢
    omega
  · omega

/-- Witness for `C10_lib_linear_equivalent`: the 10/20/10 scenario drawn from
along-offset 0; both versions resolve `[7, 17, 6]` and place the slots at
offsets 0, 7 and 24. -/
theorem C10_lib_linear_equivalent_witness :
    ((([⟨10, 5, 100⟩, ⟨20, 5, 100⟩, ⟨10, 5, 100⟩] : List ValueRange).map
        ValueRange.preferred_value).sum ≤ u32Max)
    ∧ resolveLinearW [⟨10, 5, 100⟩, ⟨20, 5, 100⟩, ⟨10, 5, 100⟩] [1, 1, 1] 30
      = resolveLinear [⟨10, 5, 100⟩, ⟨20, 5, 100⟩, ⟨10, 5, 100⟩] [1, 1, 1] 30
    ∧ placedW 0 (resolveLinearW [⟨10, 5, 100⟩, ⟨20, 5, 100⟩, ⟨10, 5, 100⟩] [1, 1, 1] 30)
      = placedSat 0 (resolveLinear [⟨10, 5, 100⟩, ⟨20, 5, 100⟩, ⟨10, 5, 100⟩] [1, 1, 1] 30)
    ∧ placedSat 0 (resolveLinear [⟨10, 5, 100⟩, ⟨20, 5, 100⟩, ⟨10, 5, 100⟩] [1, 1, 1] 30)
      = [(0, 7), (7, 17), (24, 6)] := by
  have h := C10_lib_linear_equivalent [⟨10, 5, 100⟩, ⟨20, 5, 100⟩, ⟨10, 5, 100⟩]
    [1, 1, 1] 30 0 (by decide) (by decide) (by decide) (by decide) (by decide)
    (by decide) (by decide)
  refine ⟨by decide, h.1, h.2, ?_⟩
  rw [resolveLinear_eq_fuel]
  decide

end SimpleLayout
